import Mathlib

/-!
Verification of the `migrations` package of erigon: a schema-migration
engine over a transactional key-value store.

The embedding models:
* the migration-tracking bucket (`dbutils.Migrations`) as an association
  list from string keys to byte values (bytes are `List Nat`);
* a migration unit's body (`Migration.Up`) as the trace of its
  interactions with the engine: the sequence of commit-handler
  invocations it performs (each either a checkpoint call, `isDone=false`,
  or a completion call, `isDone=true`) followed by the error value it
  returns, both as a function of the resume-progress bytes it receives;
* the long-lived read-write transaction as a pair of buckets: the
  transaction view `tx` and the durable view `dur`; `CommitAndBegin`
  copies `tx` into `dur`, the deferred `Rollback` discards `tx`, the
  final `Commit` copies `tx` into `dur`;
* the stage-progress buckets (`SyncStageProgress`, `SyncStageUnwind`),
  read-only to this engine, as functions from stage keys to bytes
  (the empty list standing for an absent entry);
* the CBOR encoding used by the payload codec (the external
  `ugorji/go/codec` library with `CborHandle`) as a concrete subset of
  CBOR: a map of text-string keys to byte-string values with minimally
  encoded length arguments.
-/

namespace Erigon

/-- Byte strings are lists of naturals (each conceptually `< 256`). -/
abbrev Bytes := List Nat

/-- Stage keys are raw byte strings. -/
abbrev SKey := List Nat

/-- `GetOne` on an association-list bucket: first value stored at a key. -/
def bget {α : Type} [DecidableEq α] : List (α × Bytes) → α → Option Bytes
  | [], _ => none
  | kv :: rest, k => if k = kv.1 then some kv.2 else bget rest k

/-- `Put` on an association-list bucket: replace the value at the key in
place, or append the pair at the end when the key is absent. -/
def bput {α : Type} [DecidableEq α] : List (α × Bytes) → α → Bytes → List (α × Bytes)
  | [], k, v => [(k, v)]
  | kv :: rest, k, v => if k = kv.1 then (k, v) :: rest else kv :: bput rest k v

/-- `Delete` on an association-list bucket: drop entries stored at a key. -/
def bdel {α : Type} [DecidableEq α] : List (α × Bytes) → α → List (α × Bytes)
  | [], _ => []
  | kv :: rest, k => if k = kv.1 then bdel rest k else kv :: bdel rest k

/-- The migration-tracking bucket `dbutils.Migrations`. -/
abbrev Bucket := List (String × Bytes)

/-- One interaction of a unit body with the commit handler: either a
checkpoint invocation (`isDone=false`, carrying an optional progress key)
or a completion invocation (`isDone=true`). -/
inductive HandlerCall : Type
  | checkpoint (key : Option Bytes)
  | done
deriving DecidableEq, Repr

/-- A migration unit: a name and a body.  The body is embedded as its
observable behaviour: given the resume-progress bytes (none when no
progress checkpoint is stored), it performs a sequence of commit-handler
invocations and then returns an optional error (numbered error codes
standing for arbitrary non-nil Go errors; `none` is a nil return). -/
structure Migration : Type where
  Name : String
  Up : Option Bytes → List HandlerCall × Option Nat

/-- The migrator: an ordered list of registered migration units. -/
structure Migrator : Type where
  Migrations : List Migration

/-- The store state visible to this engine: the migrations bucket, the
schema-version entry of the database-info bucket, and the two read-only
stage-progress buckets. -/
structure DBState : Type where
  migrations : Bucket
  schemaVersion : Option Bytes
  syncStageProgress : SKey → Bytes
  syncStageUnwind : SKey → Bytes

/-- `bytes.HasPrefix(k, []byte("_progress_"))` on string keys, expressed
on the underlying character data. -/
def isProgKey (k : String) : Bool := "_progress_".data.isPrefixOf k.data

/-- The progress-checkpoint key of a unit: `"_progress_" + name`. -/
def progKey (name : String) : String := "_progress_" ++ name

/-- `AppliedMigrations` restricted to a bucket value: walk the bucket,
skip keys carrying the progress prefix, keep the payload only when
`withPayload` is set. -/
def appliedOf (b : Bucket) (withPayload : Bool) : Bucket :=
  b.filterMap fun kv =>
    if isProgKey kv.1 then none
    else some (kv.1, if withPayload then kv.2 else [])

/-- `AppliedMigrations(db, withPayload)` from the source: the set of
names holding an applied-migration record, as a key-value list. -/
def AppliedMigrations (db : DBState) (withPayload : Bool) : Bucket :=
  appliedOf db.migrations withPayload

/-- The set of applied names of a migrations bucket (the key set of the
map returned by `AppliedMigrations`). -/
def appliedNames (b : Bucket) : List String :=
  (appliedOf b false).map Prod.fst

/-- `PendingMigrations` from the source: the registered units whose name
is not a key of the applied map, collected in registration order. -/
def Migrator.PendingMigrations (m : Migrator) (db : DBState) : List Migration :=
  let applied := (AppliedMigrations db false).map Prod.fst
  m.Migrations.foldl (fun acc v => if v.Name ∈ applied then acc else acc ++ [v]) []

/-- `HasPendingMigrations` from the source: `len(pending) > 0`. -/
def Migrator.HasPendingMigrations (m : Migrator) (db : DBState) : Bool :=
  decide (0 < (m.PendingMigrations db).length)

/-- The uniqueness scan of `Apply`: walk the registered list keeping the
set of names seen so far and report the first repeated name. -/
def firstDup (seen : List String) : List Migration → Option String
  | [] => none
  | v :: rest => if v.Name ∈ seen then some v.Name else firstDup (v.Name :: seen) rest

/-- A database schema version triple. -/
structure DBSchemaVersion : Type where
  Major : Nat
  Minor : Nat
  Patch : Nat

/-- Modelled from the spec: the fixed schema-version triple of the MDBX
backend lives in the external `dbutils` package; its concrete value is
not part of this fragment, so an arbitrary triple is used. -/
def DBSchemaVersionMDBX : DBSchemaVersion := ⟨1, 0, 0⟩

/-- Modelled from the spec: the fixed schema-version triple of the LMDB
backend lives in the external `dbutils` package; its concrete value is
not part of this fragment, so an arbitrary distinct triple is used. -/
def DBSchemaVersionLMDB : DBSchemaVersion := ⟨2, 0, 0⟩

/-- `binary.BigEndian.PutUint32`: four big-endian bytes of `n mod 2^32`. -/
def putUint32BE (n : Nat) : Bytes :=
  [n / 2 ^ 24 % 256, n / 2 ^ 16 % 256, n / 2 ^ 8 % 256, n % 256]

/-- The 12-byte schema-version record written at the end of `Apply`:
three consecutive 4-byte big-endian fields, the triple being selected by
the backend-variant flag. -/
def schemaVersionBytes (mdbx : Bool) : Bytes :=
  (putUint32BE (if mdbx then DBSchemaVersionMDBX else DBSchemaVersionLMDB).Major) ++
  (putUint32BE (if mdbx then DBSchemaVersionMDBX else DBSchemaVersionLMDB).Minor) ++
  (putUint32BE (if mdbx then DBSchemaVersionMDBX else DBSchemaVersionLMDB).Patch)

/-- CBOR head: major type and minimally-encoded length argument, as
written by the external CBOR encoder for the arguments this codec emits. -/
def cborHead (major n : Nat) : Bytes :=
  if n < 24 then [major * 32 + n]
  else if n < 2 ^ 8 then [major * 32 + 24, n]
  else if n < 2 ^ 16 then [major * 32 + 25, n / 2 ^ 8, n % 2 ^ 8]
  else if n < 2 ^ 32 then
    [major * 32 + 26, n / 2 ^ 24 % 256, n / 2 ^ 16 % 256, n / 2 ^ 8 % 256, n % 256]
  else
    [major * 32 + 27, n / 2 ^ 56 % 256, n / 2 ^ 48 % 256, n / 2 ^ 40 % 256,
      n / 2 ^ 32 % 256, n / 2 ^ 24 % 256, n / 2 ^ 16 % 256, n / 2 ^ 8 % 256, n % 256]

/-- CBOR encoding of the entries of the stage-progress mapping: each key
as a text string (major type 3), each value as a byte string (major 2). -/
def cborEncPairs : List (SKey × Bytes) → Bytes
  | [] => []
  | (k, v) :: rest => cborHead 3 k.length ++ k ++ cborHead 2 v.length ++ v ++ cborEncPairs rest

/-- CBOR encoding of the stage-progress mapping: a map head (major type
5) carrying the entry count, followed by the encoded entries. -/
def cborEncMap (s : List (SKey × Bytes)) : Bytes :=
  cborHead 5 s.length ++ cborEncPairs s

/-- CBOR head decoding: read one byte, split major type and additional
information, and read the extended length argument when present. -/
def cborReadHead : Bytes → Option (Nat × Nat × Bytes)
  | [] => none
  | b :: rest =>
    if b % 32 < 24 then some (b / 32, b % 32, rest)
    else if b % 32 = 24 then
      match rest with
      | x :: r => some (b / 32, x, r)
      | [] => none
    else if b % 32 = 25 then
      match rest with
      | x :: y :: r => some (b / 32, x * 256 + y, r)
      | _ => none
    else if b % 32 = 26 then
      match rest with
      | x1 :: x2 :: x3 :: x4 :: r =>
          some (b / 32, ((x1 * 256 + x2) * 256 + x3) * 256 + x4, r)
      | _ => none
    else if b % 32 = 27 then
      match rest with
      | x1 :: x2 :: x3 :: x4 :: x5 :: x6 :: x7 :: x8 :: r =>
          some (b / 32,
            ((((((x1 * 256 + x2) * 256 + x3) * 256 + x4) * 256 + x5) * 256 + x6)
              * 256 + x7) * 256 + x8, r)
      | _ => none
    else none

/-- Take a fixed number of payload bytes from the input. -/
def readChunk (n : Nat) (l : Bytes) : Option (Bytes × Bytes) :=
  if n ≤ l.length then some (l.take n, l.drop n) else none

/-- Decode a given number of key-value entries of a CBOR map whose keys
are text strings and whose values are byte strings. -/
def cborDecPairs : Nat → Bytes → Option (List (SKey × Bytes) × Bytes)
  | 0, l => some ([], l)
  | n + 1, l => do
    let h1 ← cborReadHead l
    if h1.1 = 3 then
      let kc ← readChunk h1.2.1 h1.2.2
      let h2 ← cborReadHead kc.2
      if h2.1 = 2 then
        let vc ← readChunk h2.2.1 h2.2.2
        let t ← cborDecPairs n vc.2
        some ((kc.1, vc.1) :: t.1, t.2)
      else none
    else none

/-- The `"unwind_"` key tag prepended to a stage name for its
unwind-pointer entry, as a byte string. -/
def unwindTag : SKey := [117, 110, 119, 105, 110, 100, 95]

/-- The loop body of `MarshalMigrationPayload`: for each known stage, in
order, store its forward-progress value and then its unwind value into
the mapping when non-empty, with Go-map insertion semantics. -/
def collectStagePairs (stP stU : SKey → Bytes) :
    List SKey → List (SKey × Bytes) → List (SKey × Bytes)
  | [], acc => acc
  | st :: rest, acc =>
      let acc1 := if 0 < (stP st).length then bput acc st (stP st) else acc
      let acc2 := if 0 < (stU st).length then bput acc1 (unwindTag ++ st) (stU st) else acc1
      collectStagePairs stP stU rest acc2

/-- `MarshalMigrationPayload` from the source: assemble the mapping of
stage-derived keys to progress values over the known stage list and
CBOR-encode it.  The stage list (`stages.AllStages` in the source) is
passed explicitly. -/
def MarshalMigrationPayload (allStages : List SKey) (stP stU : SKey → Bytes) : Bytes :=
  cborEncMap (collectStagePairs stP stU allStages [])

/-- `UnmarshalMigrationPayload` from the source: CBOR-decode one map of
text-string keys to byte-string values; any malformed input fails. -/
def UnmarshalMigrationPayload (data : Bytes) : Option (List (SKey × Bytes)) := do
  let h ← cborReadHead data
  if h.1 = 5 then
    let p ← cborDecPairs h.2.1 h.2.2
    some p.1
  else none

/-- Modelled from the spec: the enumeration of application stages
(`stages.AllStages`) is an external collaborator; an arbitrary concrete
stage list is used where `Apply` needs one. -/
def AllStages : List SKey := [[66], [69], [83]]

/-- Run the commit-handler invocations of one unit body against the
transaction.  A checkpoint invocation stores the progress key (when
non-nil) and performs `CommitAndBegin`; a completion invocation writes
the applied-migration record from a fresh stage-progress snapshot,
deletes the progress-checkpoint record, performs `CommitAndBegin`, and
marks the commit function as called.  Returns the transaction view, the
durable view, and the commit-called flag. -/
def runCalls (allStages : List SKey) (stP stU : SKey → Bytes) (name : String) :
    List HandlerCall → Bucket → Bucket → Bool → Bucket × Bucket × Bool
  | [], tx, dur, c => (tx, dur, c)
  | HandlerCall.checkpoint key :: rest, tx, _, c =>
      let tx1 := match key with
        | none => tx
        | some k => bput tx (progKey name) k
      runCalls allStages stP stU name rest tx1 tx1 c
  | HandlerCall.done :: rest, tx, _, _ =>
      let tx1 := bdel (bput tx name (MarshalMigrationPayload allStages stP stU)) (progKey name)
      runCalls allStages stP stU name rest tx1 tx1 true

/-- The errors `Apply` can return: a wrap of
`ErrMigrationNonUniqueName` naming the duplicate, a wrap of
`ErrMigrationCommitNotCalled` naming the unit, or an error propagated
from a unit body (identified by its code). -/
inductive ApplyError : Type
  | nonUniqueName (dup : String)
  | commitNotCalled (name : String)
  | bodyError (e : Nat)
deriving DecidableEq, Repr

/-- The unit loop of `Apply`: skip units whose name is in the applied
set; otherwise read the unit's progress checkpoint from the transaction,
run its body, then propagate the body's error, or fail with
`ErrMigrationCommitNotCalled` when no completion invocation happened.
Returns the error, the transaction view, the durable view, and the names
of the units whose bodies were invoked, in order. -/
def applyLoop (allStages : List SKey) (stP stU : SKey → Bytes) (applied : List String) :
    List Migration → Bucket → Bucket → List String →
    Option ApplyError × Bucket × Bucket × List String
  | [], tx, dur, ex => (none, tx, dur, ex)
  | v :: rest, tx, dur, ex =>
      if v.Name ∈ applied then
        applyLoop allStages stP stU applied rest tx dur ex
      else
        let s := runCalls allStages stP stU v.Name (v.Up (bget tx (progKey v.Name))).1 tx dur false
        match (v.Up (bget tx (progKey v.Name))).2 with
        | some e => (some (ApplyError.bodyError e), s.1, s.2.1, ex ++ [v.Name])
        | none =>
            if s.2.2 = true then
              applyLoop allStages stP stU applied rest s.1 s.2.1 (ex ++ [v.Name])
            else
              (some (ApplyError.commitNotCalled v.Name), s.1, s.2.1, ex ++ [v.Name])

/-- `Migrator.Apply` from the source.  An empty registered list succeeds
immediately.  Otherwise: compute the applied set, validate name
uniqueness, begin the read-write transaction (`tx` starts as the durable
state, the deferred rollback restores the durable view on error), run
the unit loop, and on success write the schema-version record and commit
the transaction.  Returns the error and the resulting durable state. -/
def Migrator.Apply (m : Migrator) (db : DBState) (mdbx : Bool) :
    Option ApplyError × DBState :=
  if m.Migrations.isEmpty then (none, db)
  else
    let applied := (AppliedMigrations db false).map Prod.fst
    match firstDup [] m.Migrations with
    | some dup => (some (ApplyError.nonUniqueName dup), db)
    | none =>
        let r := applyLoop AllStages db.syncStageProgress db.syncStageUnwind applied
          m.Migrations db.migrations db.migrations []
        match r.1 with
        | some e => (some e, { db with migrations := r.2.2.1 })
        | none =>
            (none, { db with migrations := r.2.1,
                             schemaVersion := some (schemaVersionBytes mdbx) })

/-- The names of the units whose bodies `Apply` invokes, in order (the
observable record of which unit bodies actually run). -/
def Migrator.ApplyExecuted (m : Migrator) (db : DBState) : List String :=
  if m.Migrations.isEmpty then []
  else
    let applied := (AppliedMigrations db false).map Prod.fst
    match firstDup [] m.Migrations with
    | some _ => []
    | none =>
        (applyLoop AllStages db.syncStageProgress db.syncStageUnwind applied
          m.Migrations db.migrations db.migrations []).2.2.2

/-- A unit body that always signals completion: on every resume value it
invokes the commit handler at least once in completion mode and returns
nil. -/
def unitOk (v : Migration) : Prop :=
  ∀ p, HandlerCall.done ∈ (v.Up p).1 ∧ (v.Up p).2 = none

/-- A store with empty buckets and no schema version. -/
def emptyDB : DBState :=
  ⟨[], none, fun _ => [], fun _ => []⟩

/-! ### Bucket lemmas -/

theorem bget_bput_self {α : Type} [DecidableEq α] (b : List (α × Bytes)) (k : α) (v : Bytes) :
    bget (bput b k v) k = some v := by
  induction b with
  | nil => simp [bget, bput]
  | cons kv rest ih =>
      by_cases h : k = kv.1 <;> simp [bget, bput, h, ih]

theorem bget_bput_ne {α : Type} [DecidableEq α] (b : List (α × Bytes)) (k k' : α) (v : Bytes)
    (h : k' ≠ k) : bget (bput b k v) k' = bget b k' := by
  induction b with
  | nil => simp [bget, bput, h]
  | cons kv rest ih =>
      by_cases hk : k = kv.1
      · subst hk; simp [bget, bput, h]
      · by_cases hk' : k' = kv.1 <;> simp [bget, bput, hk, hk', ih]

theorem bget_bdel_ne {α : Type} [DecidableEq α] (b : List (α × Bytes)) (k k' : α)
    (h : k' ≠ k) : bget (bdel b k) k' = bget b k' := by
  induction b with
  | nil => simp [bdel]
  | cons kv rest ih =>
      by_cases hk : k = kv.1
      · subst hk; simp [bget, bdel, h, ih]
      · by_cases hk' : k' = kv.1 <;> simp [bget, bdel, hk, hk', ih]

theorem mem_of_bget_eq_some {α : Type} [DecidableEq α] (b : List (α × Bytes)) (k : α)
    (v : Bytes) (h : bget b k = some v) : (k, v) ∈ b := by
  induction b with
  | nil => simp [bget] at h
  | cons kv rest ih =>
      by_cases hk : k = kv.1
      · simp [bget, hk] at h
        subst hk; subst h
        exact List.mem_cons_self _ _
      · simp [bget, hk] at h
        exact List.mem_cons_of_mem _ (ih h)

theorem bget_ne_none_of_mem {α : Type} [DecidableEq α] (b : List (α × Bytes)) (k : α)
    (v : Bytes) (h : (k, v) ∈ b) : bget b k ≠ none := by
  induction b with
  | nil => simp at h
  | cons kv rest ih =>
      rcases List.mem_cons.mp h with h1 | h1
      · simp [bget, ← h1]
      · by_cases hk : k = kv.1 <;> simp [bget, hk, ih h1]

theorem bget_ne_none_iff {α : Type} [DecidableEq α] (b : List (α × Bytes)) (k : α) :
    bget b k ≠ none ↔ ∃ v, (k, v) ∈ b := by
  constructor
  · intro h
    cases hv : bget b k with
    | none => exact absurd hv h
    | some v => exact ⟨v, mem_of_bget_eq_some b k v hv⟩
  · rintro ⟨v, hv⟩
    exact bget_ne_none_of_mem b k v hv

theorem mem_bput_self {α : Type} [DecidableEq α] (b : List (α × Bytes)) (k : α) (v : Bytes) :
    (k, v) ∈ bput b k v := by
  induction b with
  | nil => simp [bput]
  | cons kv rest ih =>
      by_cases h : k = kv.1 <;> simp [bput, h, ih]

theorem mem_bput_of_mem_ne {α : Type} [DecidableEq α] (b : List (α × Bytes)) (k k' : α)
    (v w : Bytes) (hm : (k', w) ∈ b) (h : k' ≠ k) : (k', w) ∈ bput b k v := by
  induction b with
  | nil => simp at hm
  | cons kv rest ih =>
      simp only [bput]
      by_cases hk : k = kv.1
      · rw [if_pos hk]
        rcases List.mem_cons.mp hm with h1 | h1
        · exact absurd ((congrArg Prod.fst h1).trans hk.symm) h
        · exact List.mem_cons_of_mem _ h1
      · rw [if_neg hk]
        rcases List.mem_cons.mp hm with h1 | h1
        · rw [← h1]
          exact List.mem_cons_self _ _
        · exact List.mem_cons_of_mem _ (ih h1)

theorem mem_bput_elim {α : Type} [DecidableEq α] (b : List (α × Bytes)) (k k' : α)
    (v w : Bytes) (hm : (k', w) ∈ bput b k v) : (k', w) ∈ b ∨ k' = k := by
  induction b with
  | nil =>
      simp only [bput] at hm
      rcases List.mem_cons.mp hm with h1 | h1
      · exact Or.inr (congrArg Prod.fst h1)
      · simp at h1
  | cons kv rest ih =>
      simp only [bput] at hm
      by_cases hk : k = kv.1
      · rw [if_pos hk] at hm
        rcases List.mem_cons.mp hm with h1 | h1
        · exact Or.inr (congrArg Prod.fst h1)
        · exact Or.inl (List.mem_cons_of_mem _ h1)
      · rw [if_neg hk] at hm
        rcases List.mem_cons.mp hm with h1 | h1
        · refine Or.inl ?_
          rw [h1]
          exact List.mem_cons_self _ _
        · rcases ih h1 with h2 | h2
          · exact Or.inl (List.mem_cons_of_mem _ h2)
          · exact Or.inr h2

theorem mem_bdel_of_mem_ne {α : Type} [DecidableEq α] (b : List (α × Bytes)) (k k' : α)
    (w : Bytes) (hm : (k', w) ∈ b) (h : k' ≠ k) : (k', w) ∈ bdel b k := by
  induction b with
  | nil => simp at hm
  | cons kv rest ih =>
      simp only [bdel]
      by_cases hk : k = kv.1
      · rw [if_pos hk]
        rcases List.mem_cons.mp hm with h1 | h1
        · exact absurd ((congrArg Prod.fst h1).trans hk.symm) h
        · exact ih h1
      · rw [if_neg hk]
        rcases List.mem_cons.mp hm with h1 | h1
        · rw [← h1]
          exact List.mem_cons_self _ _
        · exact List.mem_cons_of_mem _ (ih h1)

theorem mem_bdel_elim {α : Type} [DecidableEq α] (b : List (α × Bytes)) (k k' : α)
    (w : Bytes) (hm : (k', w) ∈ bdel b k) : (k', w) ∈ b := by
  induction b with
  | nil => simp [bdel] at hm
  | cons kv rest ih =>
      simp only [bdel] at hm
      by_cases hk : k = kv.1
      · rw [if_pos hk] at hm
        exact List.mem_cons_of_mem _ (ih hm)
      · rw [if_neg hk] at hm
        rcases List.mem_cons.mp hm with h1 | h1
        · rw [h1]
          exact List.mem_cons_self _ _
        · exact List.mem_cons_of_mem _ (ih h1)

/-! ### Progress-prefix lemmas -/

theorem isProgKey_progKey (n : String) : isProgKey (progKey n) = true := by
  simp only [isProgKey, progKey, String.data_append]
  rw [List.isPrefixOf_iff_prefix]
  exact List.prefix_append _ _

theorem progKey_ne_self (n : String) : progKey n ≠ n := by
  intro h
  have h2 := congrArg String.length h
  rw [progKey, String.length_append] at h2
  have h3 : ("_progress_" : String).length = 10 := by decide
  omega

theorem progKey_ne_of_not_prog {n : String} (h : isProgKey n = false) (j : String) :
    progKey j ≠ n := by
  intro he
  rw [← he, isProgKey_progKey] at h
  exact Bool.noConfusion h

/-! ### Applied-set lemmas -/

theorem mem_appliedNames_iff (b : Bucket) (n : String) :
    n ∈ appliedNames b ↔ (∃ v, (n, v) ∈ b) ∧ isProgKey n = false := by
  induction b with
  | nil => simp [appliedNames, appliedOf]
  | cons kv rest ih =>
      by_cases hp : isProgKey kv.1
      · have hstep : appliedNames (kv :: rest) = appliedNames rest := by
          simp [appliedNames, appliedOf, hp]
        rw [hstep, ih]
        constructor
        · rintro ⟨⟨v, hv⟩, hn⟩
          exact ⟨⟨v, List.mem_cons_of_mem _ hv⟩, hn⟩
        · rintro ⟨⟨v, hv⟩, hn⟩
          rcases List.mem_cons.mp hv with h1 | h1
          · exfalso
            have h2 : n = kv.1 := congrArg Prod.fst h1
            rw [h2, hp] at hn
            exact Bool.noConfusion hn
          · exact ⟨⟨v, h1⟩, hn⟩
      · have hstep : appliedNames (kv :: rest) = kv.1 :: appliedNames rest := by
          simp [appliedNames, appliedOf, hp]
        rw [hstep]
        constructor
        · intro h
          rcases List.mem_cons.mp h with h1 | h1
          · refine ⟨⟨kv.2, ?_⟩, ?_⟩
            · rw [h1, Prod.mk.eta]
              exact List.mem_cons_self _ _
            · rw [h1]
              simpa using hp
          · rcases ih.mp h1 with ⟨⟨v, hv⟩, hn⟩
            exact ⟨⟨v, List.mem_cons_of_mem _ hv⟩, hn⟩
        · rintro ⟨⟨v, hv⟩, hn⟩
          rcases List.mem_cons.mp hv with h1 | h1
          · exact List.mem_cons.mpr (Or.inl (congrArg Prod.fst h1))
          · exact List.mem_cons.mpr (Or.inr (ih.mpr ⟨⟨v, h1⟩, hn⟩))

theorem not_mem_appliedNames_of_prog {b : Bucket} {n : String}
    (h : isProgKey n = true) : n ∉ appliedNames b := by
  intro hm
  rcases (mem_appliedNames_iff b n).mp hm with ⟨_, hp⟩
  rw [h] at hp
  exact Bool.noConfusion hp

theorem not_prog_of_mem_appliedNames {b : Bucket} {n : String}
    (h : n ∈ appliedNames b) : isProgKey n = false :=
  ((mem_appliedNames_iff b n).mp h).2

theorem mem_appliedNames_bput {b : Bucket} {n : String} (k : String) (v : Bytes)
    (h : n ∈ appliedNames b) : n ∈ appliedNames (bput b k v) := by
  rcases (mem_appliedNames_iff b n).mp h with ⟨⟨w, hw⟩, hp⟩
  by_cases hk : n = k
  · subst hk
    exact (mem_appliedNames_iff _ n).mpr ⟨⟨v, mem_bput_self b n v⟩, hp⟩
  · exact (mem_appliedNames_iff _ n).mpr ⟨⟨w, mem_bput_of_mem_ne b k n v w hw hk⟩, hp⟩

theorem mem_appliedNames_bput_elim {b : Bucket} {n : String} {k : String} {v : Bytes}
    (h : n ∈ appliedNames (bput b k v)) : n ∈ appliedNames b ∨ n = k := by
  rcases (mem_appliedNames_iff _ n).mp h with ⟨⟨w, hw⟩, hp⟩
  rcases mem_bput_elim b k n v w hw with h1 | h1
  · exact Or.inl ((mem_appliedNames_iff b n).mpr ⟨⟨w, h1⟩, hp⟩)
  · exact Or.inr h1

theorem mem_appliedNames_bdel_prog {b : Bucket} {n : String} {k : String}
    (hk : isProgKey k = true) (h : n ∈ appliedNames b) : n ∈ appliedNames (bdel b k) := by
  rcases (mem_appliedNames_iff b n).mp h with ⟨⟨w, hw⟩, hp⟩
  have hne : n ≠ k := by
    intro he
    rw [he, hk] at hp
    exact Bool.noConfusion hp
  exact (mem_appliedNames_iff _ n).mpr ⟨⟨w, mem_bdel_of_mem_ne b k n w hw hne⟩, hp⟩

theorem mem_appliedNames_bdel_elim {b : Bucket} {n : String} {k : String}
    (h : n ∈ appliedNames (bdel b k)) : n ∈ appliedNames b := by
  rcases (mem_appliedNames_iff _ n).mp h with ⟨⟨w, hw⟩, hp⟩
  exact (mem_appliedNames_iff b n).mpr ⟨⟨w, mem_bdel_elim b k n w hw⟩, hp⟩

theorem appliedOf_bput_prog {k : String} (hk : isProgKey k = true)
    (b : Bucket) (v : Bytes) (wp : Bool) : appliedOf (bput b k v) wp = appliedOf b wp := by
  induction b with
  | nil => simp [bput, appliedOf, hk]
  | cons kv rest ih =>
      by_cases h : k = kv.1
      · simp only [bput, if_pos h, appliedOf, List.filterMap_cons]
        rw [← h, hk]
        simp
      · simp only [bput, if_neg h, appliedOf, List.filterMap_cons] at ih ⊢
        rw [ih]

theorem appliedOf_bdel_prog {k : String} (hk : isProgKey k = true)
    (b : Bucket) (wp : Bool) : appliedOf (bdel b k) wp = appliedOf b wp := by
  induction b with
  | nil => simp [bdel]
  | cons kv rest ih =>
      by_cases h : k = kv.1
      · simp only [bdel, if_pos h, appliedOf, List.filterMap_cons] at ih ⊢
        rw [← h, hk]
        simp [ih]
      · simp only [bdel, if_neg h, appliedOf, List.filterMap_cons] at ih ⊢
        rw [ih]

/-! ### Lemmas about one unit's handler-call run -/

theorem runCalls_dur (A : List SKey) (P U : SKey → Bytes) (nm : String)
    (calls : List HandlerCall) (tx : Bucket) (c : Bool) :
    (runCalls A P U nm calls tx tx c).2.1 = (runCalls A P U nm calls tx tx c).1 := by
  induction calls generalizing tx c with
  | nil => rfl
  | cons hc rest ih =>
      cases hc with
      | checkpoint key =>
          cases key with
          | none => exact ih tx c
          | some k => exact ih _ c
      | done => exact ih _ true

theorem runCalls_c_true (A : List SKey) (P U : SKey → Bytes) (nm : String)
    (calls : List HandlerCall) (tx dur : Bucket) :
    (runCalls A P U nm calls tx dur true).2.2 = true := by
  induction calls generalizing tx dur with
  | nil => rfl
  | cons hc rest ih =>
      cases hc with
      | checkpoint key => cases key <;> exact ih _ _
      | done => exact ih _ _

theorem runCalls_c_done (A : List SKey) (P U : SKey → Bytes) (nm : String)
    (calls : List HandlerCall) (tx dur : Bucket) (c : Bool)
    (h : HandlerCall.done ∈ calls) :
    (runCalls A P U nm calls tx dur c).2.2 = true := by
  induction calls generalizing tx dur c with
  | nil => simp at h
  | cons hc rest ih =>
      cases hc with
      | checkpoint key =>
          have h2 : HandlerCall.done ∈ rest := by
            rcases List.mem_cons.mp h with h1 | h1
            · exact absurd h1 (by simp)
            · exact h1
          cases key <;> exact ih _ _ _ h2
      | done => exact runCalls_c_true A P U nm rest _ _

theorem runCalls_c_not_done (A : List SKey) (P U : SKey → Bytes) (nm : String)
    (calls : List HandlerCall) (tx dur : Bucket) (c : Bool)
    (h : HandlerCall.done ∉ calls) :
    (runCalls A P U nm calls tx dur c).2.2 = c := by
  induction calls generalizing tx dur c with
  | nil => rfl
  | cons hc rest ih =>
      cases hc with
      | checkpoint key =>
          have h2 : HandlerCall.done ∉ rest := fun hr => h (List.mem_cons_of_mem _ hr)
          cases key <;> exact ih _ _ _ h2
      | done => exact absurd (List.mem_cons_self _ _) h

theorem runCalls_bget_ne (A : List SKey) (P U : SKey → Bytes) (nm : String)
    (calls : List HandlerCall) (tx dur : Bucket) (c : Bool) (n : String)
    (hn1 : n ≠ nm) (hn2 : n ≠ progKey nm) :
    bget (runCalls A P U nm calls tx dur c).1 n = bget tx n := by
  induction calls generalizing tx dur c with
  | nil => rfl
  | cons hc rest ih =>
      cases hc with
      | checkpoint key =>
          cases key with
          | none => exact ih _ _ _
          | some k =>
              show bget (runCalls A P U nm rest (bput tx (progKey nm) k)
                (bput tx (progKey nm) k) c).1 n = bget tx n
              rw [ih _ _ _, bget_bput_ne _ _ _ _ hn2]
      | done =>
          show bget (runCalls A P U nm rest
            (bdel (bput tx nm (MarshalMigrationPayload A P U)) (progKey nm))
            (bdel (bput tx nm (MarshalMigrationPayload A P U)) (progKey nm)) true).1 n = bget tx n
          rw [ih _ _ _, bget_bdel_ne _ _ _ hn2, bget_bput_ne _ _ _ _ hn1]

theorem runCalls_record (A : List SKey) (P U : SKey → Bytes) (nm : String)
    (calls : List HandlerCall) (tx dur : Bucket) (c : Bool)
    (h : HandlerCall.done ∈ calls ∨ bget tx nm = some (MarshalMigrationPayload A P U)) :
    bget (runCalls A P U nm calls tx dur c).1 nm = some (MarshalMigrationPayload A P U) := by
  have hself : nm ≠ progKey nm := Ne.symm (progKey_ne_self nm)
  induction calls generalizing tx dur c with
  | nil =>
      rcases h with h1 | h1
      · simp at h1
      · exact h1
  | cons hc rest ih =>
      cases hc with
      | checkpoint key =>
          have h2 : HandlerCall.done ∈ rest ∨ bget tx nm = some (MarshalMigrationPayload A P U) := by
            rcases h with h1 | h1
            · rcases List.mem_cons.mp h1 with h3 | h3
              · exact absurd h3 (by simp)
              · exact Or.inl h3
            · exact Or.inr h1
          cases key with
          | none => exact ih _ _ _ h2
          | some k =>
              refine ih _ _ _ ?_
              rcases h2 with h3 | h3
              · exact Or.inl h3
              · rw [bget_bput_ne _ _ _ _ hself]
                exact Or.inr h3
      | done =>
          refine ih _ _ _ (Or.inr ?_)
          rw [bget_bdel_ne _ _ _ hself, bget_bput_self]

theorem runCalls_applied_mono (A : List SKey) (P U : SKey → Bytes) (nm : String)
    (calls : List HandlerCall) (tx dur : Bucket) (c : Bool) (n : String)
    (h : n ∈ appliedNames tx) : n ∈ appliedNames (runCalls A P U nm calls tx dur c).1 := by
  induction calls generalizing tx dur c with
  | nil => exact h
  | cons hc rest ih =>
      cases hc with
      | checkpoint key =>
          cases key with
          | none => exact ih _ _ _ h
          | some k => exact ih _ _ _ (mem_appliedNames_bput _ _ h)
      | done =>
          refine ih _ _ _ ?_
          exact mem_appliedNames_bdel_prog (isProgKey_progKey nm)
            (mem_appliedNames_bput _ _ h)

theorem runCalls_applied_elim (A : List SKey) (P U : SKey → Bytes) (nm : String)
    (calls : List HandlerCall) (tx dur : Bucket) (c : Bool) (n : String)
    (h : n ∈ appliedNames (runCalls A P U nm calls tx dur c).1) :
    n ∈ appliedNames tx ∨ (n = nm ∧ HandlerCall.done ∈ calls) := by
  induction calls generalizing tx dur c with
  | nil => exact Or.inl h
  | cons hc rest ih =>
      cases hc with
      | checkpoint key =>
          have step : ∀ tx1 dur1 c1, n ∈ appliedNames (runCalls A P U nm rest tx1 dur1 c1).1 →
              n ∈ appliedNames tx1 ∨ (n = nm ∧ HandlerCall.done ∈ HandlerCall.checkpoint key :: rest) := by
            intro tx1 dur1 c1 hmem
            rcases ih tx1 dur1 c1 hmem with h1 | ⟨h1, h2⟩
            · exact Or.inl h1
            · exact Or.inr ⟨h1, List.mem_cons_of_mem _ h2⟩
          cases key with
          | none => exact step _ _ _ h
          | some k =>
              rcases step _ _ _ h with h1 | h1
              · have hnp := not_prog_of_mem_appliedNames h1
                rcases mem_appliedNames_bput_elim h1 with h2 | h2
                · exact Or.inl h2
                · exact absurd h2.symm (progKey_ne_of_not_prog hnp nm)
              · exact Or.inr h1
      | done =>
          rcases ih _ _ _ h with h1 | ⟨h1, _⟩
          · have h2 := mem_appliedNames_bdel_elim h1
            rcases mem_appliedNames_bput_elim h2 with h3 | h3
            · exact Or.inl h3
            · exact Or.inr ⟨h3, List.mem_cons_self _ _⟩
          · exact Or.inr ⟨h1, List.mem_cons_self _ _⟩

theorem runCalls_appliedOf_prog (A : List SKey) (P U : SKey → Bytes) (nm : String)
    (hnm : isProgKey nm = true) (calls : List HandlerCall) (tx dur : Bucket) (c : Bool)
    (wp : Bool) : appliedOf (runCalls A P U nm calls tx dur c).1 wp = appliedOf tx wp := by
  induction calls generalizing tx dur c with
  | nil => rfl
  | cons hc rest ih =>
      cases hc with
      | checkpoint key =>
          cases key with
          | none => exact ih _ _ _
          | some k =>
              show appliedOf (runCalls A P U nm rest (bput tx (progKey nm) k)
                (bput tx (progKey nm) k) c).1 wp = appliedOf tx wp
              rw [ih _ _ _, appliedOf_bput_prog (isProgKey_progKey nm)]
      | done =>
          show appliedOf (runCalls A P U nm rest
            (bdel (bput tx nm (MarshalMigrationPayload A P U)) (progKey nm))
            (bdel (bput tx nm (MarshalMigrationPayload A P U)) (progKey nm)) true).1 wp
            = appliedOf tx wp
          rw [ih _ _ _, appliedOf_bdel_prog (isProgKey_progKey nm),
            appliedOf_bput_prog hnm]

/-! ### Step lemmas for the unit loop -/

theorem applyLoop_cons_skip (A : List SKey) (P U : SKey → Bytes) (ap : List String)
    (v : Migration) (rest : List Migration) (tx dur : Bucket) (ex : List String)
    (hv : v.Name ∈ ap) :
    applyLoop A P U ap (v :: rest) tx dur ex = applyLoop A P U ap rest tx dur ex := by
  simp only [applyLoop, if_pos hv]

theorem applyLoop_cons_err (A : List SKey) (P U : SKey → Bytes) (ap : List String)
    (v : Migration) (rest : List Migration) (tx dur : Bucket) (ex : List String)
    (hv : v.Name ∉ ap) (e : Nat) (hret : (v.Up (bget tx (progKey v.Name))).2 = some e) :
    applyLoop A P U ap (v :: rest) tx dur ex =
      (some (ApplyError.bodyError e),
       (runCalls A P U v.Name (v.Up (bget tx (progKey v.Name))).1 tx dur false).1,
       (runCalls A P U v.Name (v.Up (bget tx (progKey v.Name))).1 tx dur false).2.1,
       ex ++ [v.Name]) := by
  simp only [applyLoop, if_neg hv, hret]

theorem applyLoop_cons_ok (A : List SKey) (P U : SKey → Bytes) (ap : List String)
    (v : Migration) (rest : List Migration) (tx dur : Bucket) (ex : List String)
    (hv : v.Name ∉ ap) (hret : (v.Up (bget tx (progKey v.Name))).2 = none)
    (hflag : (runCalls A P U v.Name (v.Up (bget tx (progKey v.Name))).1 tx dur false).2.2 = true) :
    applyLoop A P U ap (v :: rest) tx dur ex =
      applyLoop A P U ap rest
        (runCalls A P U v.Name (v.Up (bget tx (progKey v.Name))).1 tx dur false).1
        (runCalls A P U v.Name (v.Up (bget tx (progKey v.Name))).1 tx dur false).2.1
        (ex ++ [v.Name]) := by
  simp only [applyLoop, if_neg hv, hret, hflag, if_pos]

theorem applyLoop_cons_nocommit (A : List SKey) (P U : SKey → Bytes) (ap : List String)
    (v : Migration) (rest : List Migration) (tx dur : Bucket) (ex : List String)
    (hv : v.Name ∉ ap) (hret : (v.Up (bget tx (progKey v.Name))).2 = none)
    (hflag : (runCalls A P U v.Name (v.Up (bget tx (progKey v.Name))).1 tx dur false).2.2 = false) :
    applyLoop A P U ap (v :: rest) tx dur ex =
      (some (ApplyError.commitNotCalled v.Name),
       (runCalls A P U v.Name (v.Up (bget tx (progKey v.Name))).1 tx dur false).1,
       (runCalls A P U v.Name (v.Up (bget tx (progKey v.Name))).1 tx dur false).2.1,
       ex ++ [v.Name]) := by
  simp only [applyLoop, if_neg hv, hret, hflag]
  simp

/-! ### Invariants of the unit loop -/

theorem applyLoop_dur (A : List SKey) (P U : SKey → Bytes) (ap : List String)
    (units : List Migration) : ∀ (tx : Bucket) (ex : List String),
    (applyLoop A P U ap units tx tx ex).2.2.1 = (applyLoop A P U ap units tx tx ex).2.1 := by
  induction units with
  | nil => intro tx ex; rfl
  | cons v rest ih =>
      intro tx ex
      by_cases hv : v.Name ∈ ap
      · rw [applyLoop_cons_skip _ _ _ _ _ _ _ _ _ hv]
        exact ih _ _
      · cases hret : (v.Up (bget tx (progKey v.Name))).2 with
        | some e =>
            rw [applyLoop_cons_err _ _ _ _ _ _ _ _ _ hv e hret]
            exact runCalls_dur _ _ _ _ _ _ _
        | none =>
            cases hflag : (runCalls A P U v.Name (v.Up (bget tx (progKey v.Name))).1 tx tx false).2.2 with
            | false =>
                rw [applyLoop_cons_nocommit _ _ _ _ _ _ _ _ _ hv hret hflag]
                exact runCalls_dur _ _ _ _ _ _ _
            | true =>
                rw [applyLoop_cons_ok _ _ _ _ _ _ _ _ _ hv hret hflag,
                  runCalls_dur _ _ _ _ _ _ _]
                exact ih _ _

theorem applyLoop_err_none (A : List SKey) (P U : SKey → Bytes) (ap : List String)
    (units : List Migration) (hok : ∀ v ∈ units, v.Name ∈ ap ∨ unitOk v) :
    ∀ (tx dur : Bucket) (ex : List String), (applyLoop A P U ap units tx dur ex).1 = none := by
  induction units with
  | nil => intro tx dur ex; rfl
  | cons v rest ih =>
      intro tx dur ex
      have hokr : ∀ w ∈ rest, w.Name ∈ ap ∨ unitOk w :=
        fun w hw => hok w (List.mem_cons_of_mem _ hw)
      by_cases hv : v.Name ∈ ap
      · rw [applyLoop_cons_skip _ _ _ _ _ _ _ _ _ hv]
        exact ih hokr _ _ _
      · rcases hok v (List.mem_cons_self _ _) with h1 | h1
        · exact absurd h1 hv
        · have hdone := (h1 (bget tx (progKey v.Name))).1
          have hret := (h1 (bget tx (progKey v.Name))).2
          rw [applyLoop_cons_ok _ _ _ _ _ _ _ _ _ hv hret
            (runCalls_c_done _ _ _ _ _ _ _ _ hdone)]
          exact ih hokr _ _ _

theorem applyLoop_exec (A : List SKey) (P U : SKey → Bytes) (ap : List String)
    (units : List Migration) (hok : ∀ v ∈ units, v.Name ∈ ap ∨ unitOk v) :
    ∀ (tx dur : Bucket) (ex : List String),
    (applyLoop A P U ap units tx dur ex).2.2.2 =
      ex ++ (units.filter (fun v => decide (v.Name ∉ ap))).map Migration.Name := by
  induction units with
  | nil => intro tx dur ex; simp [applyLoop]
  | cons v rest ih =>
      intro tx dur ex
      have hokr : ∀ w ∈ rest, w.Name ∈ ap ∨ unitOk w :=
        fun w hw => hok w (List.mem_cons_of_mem _ hw)
      by_cases hv : v.Name ∈ ap
      · rw [applyLoop_cons_skip _ _ _ _ _ _ _ _ _ hv, ih hokr _ _ _]
        simp [List.filter_cons, hv]
      · rcases hok v (List.mem_cons_self _ _) with h1 | h1
        · exact absurd h1 hv
        · have hdone := (h1 (bget tx (progKey v.Name))).1
          have hret := (h1 (bget tx (progKey v.Name))).2
          rw [applyLoop_cons_ok _ _ _ _ _ _ _ _ _ hv hret
            (runCalls_c_done _ _ _ _ _ _ _ _ hdone), ih hokr _ _ _]
          simp [List.filter_cons, hv]

theorem applyLoop_exec_sub (A : List SKey) (P U : SKey → Bytes) (ap : List String)
    (units : List Migration) :
    ∀ (tx dur : Bucket) (ex : List String) (n : String),
    n ∈ (applyLoop A P U ap units tx dur ex).2.2.2 →
      n ∈ ex ∨ (n ∈ units.map Migration.Name ∧ n ∉ ap) := by
  induction units with
  | nil => intro tx dur ex n h; exact Or.inl h
  | cons v rest ih =>
      intro tx dur ex n h
      by_cases hv : v.Name ∈ ap
      · rw [applyLoop_cons_skip _ _ _ _ _ _ _ _ _ hv] at h
        rcases ih _ _ _ _ h with h1 | ⟨h1, h2⟩
        · exact Or.inl h1
        · exact Or.inr ⟨by simp [h1], h2⟩
      · have hstep : ∀ q ∈ ex ++ [v.Name],
            q ∈ ex ∨ (q ∈ (v :: rest).map Migration.Name ∧ q ∉ ap) := by
          intro q hq
          rcases List.mem_append.mp hq with h1 | h1
          · exact Or.inl h1
          · have h2 : q = v.Name := by simpa using h1
            exact Or.inr ⟨by simp [h2], h2 ▸ hv⟩
        cases hret : (v.Up (bget tx (progKey v.Name))).2 with
        | some e =>
            rw [applyLoop_cons_err _ _ _ _ _ _ _ _ _ hv e hret] at h
            exact hstep n h
        | none =>
            cases hflag : (runCalls A P U v.Name (v.Up (bget tx (progKey v.Name))).1 tx dur false).2.2 with
            | false =>
                rw [applyLoop_cons_nocommit _ _ _ _ _ _ _ _ _ hv hret hflag] at h
                exact hstep n h
            | true =>
                rw [applyLoop_cons_ok _ _ _ _ _ _ _ _ _ hv hret hflag] at h
                rcases ih _ _ _ _ h with h1 | ⟨h1, h2⟩
                · exact hstep n h1
                · exact Or.inr ⟨by simp [List.mem_cons_of_mem, h1], h2⟩

theorem applyLoop_applied_mono (A : List SKey) (P U : SKey → Bytes) (ap : List String)
    (units : List Migration) :
    ∀ (tx dur : Bucket) (ex : List String) (n : String),
    n ∈ appliedNames tx → n ∈ appliedNames (applyLoop A P U ap units tx dur ex).2.1 := by
  induction units with
  | nil => intro tx dur ex n h; exact h
  | cons v rest ih =>
      intro tx dur ex n h
      by_cases hv : v.Name ∈ ap
      · rw [applyLoop_cons_skip _ _ _ _ _ _ _ _ _ hv]
        exact ih _ _ _ _ h
      · have hmono := runCalls_applied_mono A P U v.Name
          (v.Up (bget tx (progKey v.Name))).1 tx dur false n h
        cases hret : (v.Up (bget tx (progKey v.Name))).2 with
        | some e =>
            rw [applyLoop_cons_err _ _ _ _ _ _ _ _ _ hv e hret]
            exact hmono
        | none =>
            cases hflag : (runCalls A P U v.Name (v.Up (bget tx (progKey v.Name))).1 tx dur false).2.2 with
            | false =>
                rw [applyLoop_cons_nocommit _ _ _ _ _ _ _ _ _ hv hret hflag]
                exact hmono
            | true =>
                rw [applyLoop_cons_ok _ _ _ _ _ _ _ _ _ hv hret hflag]
                exact ih _ _ _ _ hmono

theorem applyLoop_marks (A : List SKey) (P U : SKey → Bytes) (ap : List String)
    (units : List Migration) (hok : ∀ v ∈ units, v.Name ∈ ap ∨ unitOk v) :
    ∀ (tx dur : Bucket) (ex : List String), (∀ nn ∈ ap, nn ∈ appliedNames tx) →
    ∀ v ∈ units, isProgKey v.Name = true ∨
      v.Name ∈ appliedNames (applyLoop A P U ap units tx dur ex).2.1 := by
  induction units with
  | nil => intro tx dur ex happ v hv; simp at hv
  | cons u rest ih =>
      intro tx dur ex happ v hv
      have hokr : ∀ w ∈ rest, w.Name ∈ ap ∨ unitOk w :=
        fun w hw => hok w (List.mem_cons_of_mem _ hw)
      by_cases hu : u.Name ∈ ap
      · rw [applyLoop_cons_skip _ _ _ _ _ _ _ _ _ hu]
        rcases List.mem_cons.mp hv with h1 | h1
        · refine Or.inr ?_
          rw [h1]
          exact applyLoop_applied_mono _ _ _ _ _ _ _ _ _ (happ u.Name hu)
        · exact ih hokr _ _ _ happ v h1
      · rcases hok u (List.mem_cons_self _ _) with h2 | h2
        · exact absurd h2 hu
        · have hdone := (h2 (bget tx (progKey u.Name))).1
          have hret := (h2 (bget tx (progKey u.Name))).2
          rw [applyLoop_cons_ok _ _ _ _ _ _ _ _ _ hu hret
            (runCalls_c_done _ _ _ _ _ _ _ _ hdone)]
          have hrec : bget (runCalls A P U u.Name (u.Up (bget tx (progKey u.Name))).1 tx dur false).1
              u.Name = some (MarshalMigrationPayload A P U) :=
            runCalls_record _ _ _ _ _ _ _ _ (Or.inl hdone)
          have happ1 : ∀ nn ∈ ap,
              nn ∈ appliedNames (runCalls A P U u.Name (u.Up (bget tx (progKey u.Name))).1 tx dur false).1 :=
            fun nn hnn => runCalls_applied_mono _ _ _ _ _ _ _ _ _ (happ nn hnn)
          rcases List.mem_cons.mp hv with h1 | h1
          · by_cases hp : isProgKey u.Name = true
            · exact Or.inl (h1 ▸ hp)
            · refine Or.inr ?_
              rw [h1]
              refine applyLoop_applied_mono _ _ _ _ _ _ _ _ _ ?_
              refine (mem_appliedNames_iff _ _).mpr
                ⟨⟨MarshalMigrationPayload A P U, mem_of_bget_eq_some _ _ _ hrec⟩, ?_⟩
              simpa using hp
          · exact ih hokr _ _ _ happ1 v h1

theorem applyLoop_appliedOf_inv (A : List SKey) (P U : SKey → Bytes) (ap : List String)
    (units : List Migration)
    (hok : ∀ v ∈ units, v.Name ∈ ap ∨ (isProgKey v.Name = true ∧ unitOk v)) (wp : Bool) :
    ∀ (tx dur : Bucket) (ex : List String),
    appliedOf (applyLoop A P U ap units tx dur ex).2.1 wp = appliedOf tx wp := by
  induction units with
  | nil => intro tx dur ex; rfl
  | cons u rest ih =>
      intro tx dur ex
      have hokr : ∀ w ∈ rest, w.Name ∈ ap ∨ (isProgKey w.Name = true ∧ unitOk w) :=
        fun w hw => hok w (List.mem_cons_of_mem _ hw)
      by_cases hu : u.Name ∈ ap
      · rw [applyLoop_cons_skip _ _ _ _ _ _ _ _ _ hu]
        exact ih hokr _ _ _
      · rcases hok u (List.mem_cons_self _ _) with h2 | ⟨hp, h2⟩
        · exact absurd h2 hu
        · have hdone := (h2 (bget tx (progKey u.Name))).1
          have hret := (h2 (bget tx (progKey u.Name))).2
          rw [applyLoop_cons_ok _ _ _ _ _ _ _ _ _ hu hret
            (runCalls_c_done _ _ _ _ _ _ _ _ hdone), ih hokr _ _ _,
            runCalls_appliedOf_prog _ _ _ _ hp _ _ _ _ _]

theorem applyLoop_bad_unit (A : List SKey) (P U : SKey → Bytes) (ap : List String)
    (u : Migration) (post : List Migration)
    (hbad : ∀ p, HandlerCall.done ∉ (u.Up p).1 ∧ (u.Up p).2 = none)
    (hu : u.Name ∉ ap) :
    ∀ (pre : List Migration) (tx : Bucket) (ex : List String),
      (∀ v ∈ pre, v.Name ∈ ap ∨ unitOk v) →
      (∀ v ∈ pre, v.Name ≠ u.Name) →
      u.Name ∉ appliedNames tx →
      (applyLoop A P U ap (pre ++ u :: post) tx tx ex).1 =
          some (ApplyError.commitNotCalled u.Name) ∧
        u.Name ∉ appliedNames (applyLoop A P U ap (pre ++ u :: post) tx tx ex).2.1 := by
  intro pre
  induction pre with
  | nil =>
      intro tx ex _ _ htx
      have hdone := (hbad (bget tx (progKey u.Name))).1
      have hret := (hbad (bget tx (progKey u.Name))).2
      have hflag : (runCalls A P U u.Name (u.Up (bget tx (progKey u.Name))).1 tx tx false).2.2 = false :=
        runCalls_c_not_done _ _ _ _ _ _ _ _ hdone
      rw [List.nil_append, applyLoop_cons_nocommit _ _ _ _ _ _ _ _ _ hu hret hflag]
      refine ⟨rfl, ?_⟩
      intro hmem
      rcases runCalls_applied_elim _ _ _ _ _ _ _ _ _ hmem with h1 | ⟨_, h2⟩
      · exact htx h1
      · exact hdone h2
  | cons w pre' ih =>
      intro tx ex hokp hnep htx
      have hokp' : ∀ v ∈ pre', v.Name ∈ ap ∨ unitOk v :=
        fun v hv => hokp v (List.mem_cons_of_mem _ hv)
      have hnep' : ∀ v ∈ pre', v.Name ≠ u.Name :=
        fun v hv => hnep v (List.mem_cons_of_mem _ hv)
      rw [List.cons_append]
      by_cases hw : w.Name ∈ ap
      · rw [applyLoop_cons_skip _ _ _ _ _ _ _ _ _ hw]
        exact ih _ _ hokp' hnep' htx
      · rcases hokp w (List.mem_cons_self _ _) with h2 | h2
        · exact absurd h2 hw
        · have hdone := (h2 (bget tx (progKey w.Name))).1
          have hret := (h2 (bget tx (progKey w.Name))).2
          rw [applyLoop_cons_ok _ _ _ _ _ _ _ _ _ hw hret
            (runCalls_c_done _ _ _ _ _ _ _ _ hdone),
            runCalls_dur _ _ _ _ _ _ _]
          refine ih _ _ hokp' hnep' ?_
          intro hmem
          rcases runCalls_applied_elim _ _ _ _ _ _ _ _ _ hmem with h1 | ⟨h1, _⟩
          · exact htx h1
          · exact (hnep w (List.mem_cons_self _ _)) h1.symm

theorem applyLoop_errdone_unit (A : List SKey) (P U : SKey → Bytes) (ap : List String)
    (u : Migration) (post : List Migration) (e : Nat)
    (hbody : ∀ p, HandlerCall.done ∈ (u.Up p).1 ∧ (u.Up p).2 = some e)
    (hu : u.Name ∉ ap) (hnp : isProgKey u.Name = false) :
    ∀ (pre : List Migration) (tx : Bucket) (ex : List String),
      (∀ v ∈ pre, v.Name ∈ ap ∨ unitOk v) →
      (applyLoop A P U ap (pre ++ u :: post) tx tx ex).1 = some (ApplyError.bodyError e) ∧
        u.Name ∈ appliedNames (applyLoop A P U ap (pre ++ u :: post) tx tx ex).2.1 := by
  intro pre
  induction pre with
  | nil =>
      intro tx ex _
      have hdone := (hbody (bget tx (progKey u.Name))).1
      have hret := (hbody (bget tx (progKey u.Name))).2
      rw [List.nil_append, applyLoop_cons_err _ _ _ _ _ _ _ _ _ hu e hret]
      refine ⟨rfl, ?_⟩
      have hrec : bget (runCalls A P U u.Name (u.Up (bget tx (progKey u.Name))).1 tx tx false).1
          u.Name = some (MarshalMigrationPayload A P U) :=
        runCalls_record _ _ _ _ _ _ _ _ (Or.inl hdone)
      exact (mem_appliedNames_iff _ _).mpr
        ⟨⟨MarshalMigrationPayload A P U, mem_of_bget_eq_some _ _ _ hrec⟩, hnp⟩
  | cons w pre' ih =>
      intro tx ex hokp
      have hokp' : ∀ v ∈ pre', v.Name ∈ ap ∨ unitOk v :=
        fun v hv => hokp v (List.mem_cons_of_mem _ hv)
      rw [List.cons_append]
      by_cases hw : w.Name ∈ ap
      · rw [applyLoop_cons_skip _ _ _ _ _ _ _ _ _ hw]
        exact ih _ _ hokp'
      · rcases hokp w (List.mem_cons_self _ _) with h2 | h2
        · exact absurd h2 hw
        · have hdone := (h2 (bget tx (progKey w.Name))).1
          have hret := (h2 (bget tx (progKey w.Name))).2
          rw [applyLoop_cons_ok _ _ _ _ _ _ _ _ _ hw hret
            (runCalls_c_done _ _ _ _ _ _ _ _ hdone),
            runCalls_dur _ _ _ _ _ _ _]
          exact ih _ _ hokp'

/-! ### Lemmas about the uniqueness scan -/

theorem firstDup_eq_none (units : List Migration) :
    ∀ seen, (∀ v ∈ units, v.Name ∉ seen) → (units.map Migration.Name).Nodup →
      firstDup seen units = none := by
  induction units with
  | nil => intro seen _ _; rfl
  | cons v rest ih =>
      intro seen hs hn
      simp only [List.map_cons, List.nodup_cons] at hn
      simp only [firstDup]
      rw [if_neg (hs v (List.mem_cons_self _ _))]
      refine ih (v.Name :: seen) ?_ hn.2
      intro w hw hmem
      rcases List.mem_cons.mp hmem with h1 | h1
      · exact hn.1 (List.mem_map.mpr ⟨w, hw, h1⟩)
      · exact hs w (List.mem_cons_of_mem _ hw) h1

theorem firstDup_none_disjoint (units : List Migration) :
    ∀ seen, firstDup seen units = none →
      ∀ n ∈ seen, n ∉ units.map Migration.Name := by
  induction units with
  | nil => intro seen _ n _; simp
  | cons v rest ih =>
      intro seen hfd n hn
      simp only [firstDup] at hfd
      by_cases hv : v.Name ∈ seen
      · rw [if_pos hv] at hfd
        exact Option.noConfusion hfd
      · rw [if_neg hv] at hfd
        intro hmem
        rcases List.mem_cons.mp hmem with h1 | h1
        · exact hv (h1 ▸ hn)
        · exact ih (v.Name :: seen) hfd n (List.mem_cons_of_mem _ hn) h1

theorem nodup_of_firstDup_none (units : List Migration) :
    ∀ seen, firstDup seen units = none → (units.map Migration.Name).Nodup := by
  induction units with
  | nil => intro seen _; simp
  | cons v rest ih =>
      intro seen hfd
      simp only [firstDup] at hfd
      by_cases hv : v.Name ∈ seen
      · rw [if_pos hv] at hfd
        exact Option.noConfusion hfd
      · rw [if_neg hv] at hfd
        simp only [List.map_cons, List.nodup_cons]
        exact ⟨firstDup_none_disjoint rest (v.Name :: seen) hfd v.Name
          (List.mem_cons_self _ _), ih _ hfd⟩

/-! ### Unfolding lemmas for Apply -/

theorem Apply_unfold_dup (m : Migrator) (db : DBState) (mdbx : Bool)
    (hne : m.Migrations.isEmpty = false) (d : String)
    (hfd : firstDup [] m.Migrations = some d) :
    m.Apply db mdbx = (some (ApplyError.nonUniqueName d), db) := by
  simp only [Migrator.Apply, hne, Bool.false_eq_true, if_false, hfd]

theorem ApplyExecuted_unfold_dup (m : Migrator) (db : DBState)
    (hne : m.Migrations.isEmpty = false) (d : String)
    (hfd : firstDup [] m.Migrations = some d) :
    m.ApplyExecuted db = [] := by
  simp only [Migrator.ApplyExecuted, hne, Bool.false_eq_true, if_false, hfd]

theorem Apply_unfold_err (m : Migrator) (db : DBState) (mdbx : Bool)
    (hne : m.Migrations.isEmpty = false) (hfd : firstDup [] m.Migrations = none)
    (e : ApplyError)
    (herr : (applyLoop AllStages db.syncStageProgress db.syncStageUnwind
        ((AppliedMigrations db false).map Prod.fst) m.Migrations db.migrations db.migrations []).1
        = some e) :
    m.Apply db mdbx = (some e,
      { db with migrations := (applyLoop AllStages db.syncStageProgress db.syncStageUnwind
          ((AppliedMigrations db false).map Prod.fst) m.Migrations db.migrations db.migrations
          []).2.2.1 }) := by
  simp only [Migrator.Apply, hne, Bool.false_eq_true, if_false, hfd, herr]

theorem Apply_unfold_ok (m : Migrator) (db : DBState) (mdbx : Bool)
    (hne : m.Migrations.isEmpty = false) (hfd : firstDup [] m.Migrations = none)
    (hok : (applyLoop AllStages db.syncStageProgress db.syncStageUnwind
        ((AppliedMigrations db false).map Prod.fst) m.Migrations db.migrations db.migrations []).1
        = none) :
    m.Apply db mdbx = (none,
      { db with
          migrations := (applyLoop AllStages db.syncStageProgress db.syncStageUnwind
            ((AppliedMigrations db false).map Prod.fst) m.Migrations db.migrations db.migrations
            []).2.1,
          schemaVersion := some (schemaVersionBytes mdbx) }) := by
  simp only [Migrator.Apply, hne, Bool.false_eq_true, if_false, hfd, hok]

theorem ApplyExecuted_unfold (m : Migrator) (db : DBState)
    (hne : m.Migrations.isEmpty = false) (hfd : firstDup [] m.Migrations = none) :
    m.ApplyExecuted db = (applyLoop AllStages db.syncStageProgress db.syncStageUnwind
      ((AppliedMigrations db false).map Prod.fst) m.Migrations db.migrations db.migrations
      []).2.2.2 := by
  simp only [Migrator.ApplyExecuted, hne, Bool.false_eq_true, if_false, hfd]

theorem isEmpty_append_cons (pre post : List Migration) (u : Migration) :
    (pre ++ u :: post).isEmpty = false := by
  cases pre <;> rfl

theorem nodup_split_ne (pre post : List Migration) (u : Migration)
    (h : ((pre ++ u :: post).map Migration.Name).Nodup) :
    ∀ v ∈ pre, v.Name ≠ u.Name := by
  intro v hv he
  rw [List.map_append, List.map_cons] at h
  refine (List.nodup_append.mp h).2.2 (List.mem_map.mpr ⟨v, hv, rfl⟩) ?_
  rw [he]
  exact List.mem_cons_self _ _

/-! ### The claims -/

/-- Claim C1: for a unique-name migration list, if the first pending unit
to run has a body that returns nil without ever invoking the commit
handler in completion mode (all earlier units being already applied or
completing normally), `Apply` returns the `ErrMigrationCommitNotCalled`
error naming that unit and no applied-migration record exists for that
unit in the resulting store. -/
theorem c1_commit_not_called (m : Migrator) (db : DBState) (mdbx : Bool)
    (u : Migration) (pre post : List Migration)
    (hsplit : m.Migrations = pre ++ u :: post)
    (hnodup : (m.Migrations.map Migration.Name).Nodup)
    (hpre : ∀ v ∈ pre, v.Name ∈ appliedNames db.migrations ∨ unitOk v)
    (hu : u.Name ∉ appliedNames db.migrations)
    (hbad : ∀ p, HandlerCall.done ∉ (u.Up p).1 ∧ (u.Up p).2 = none) :
    (m.Apply db mdbx).1 = some (ApplyError.commitNotCalled u.Name) ∧
      u.Name ∉ appliedNames (m.Apply db mdbx).2.migrations := by
  have hne : m.Migrations.isEmpty = false := by
    rw [hsplit]
    exact isEmpty_append_cons _ _ _
  have hfd : firstDup [] m.Migrations = none :=
    firstDup_eq_none _ [] (by simp) hnodup
  have hprene : ∀ v ∈ pre, v.Name ≠ u.Name := by
    refine nodup_split_ne pre post u ?_
    rw [← hsplit]
    exact hnodup
  obtain ⟨herr, hnm⟩ := applyLoop_bad_unit AllStages db.syncStageProgress db.syncStageUnwind
    (appliedNames db.migrations) u post hbad hu pre db.migrations [] hpre hprene hu
  have herr2 : (applyLoop AllStages db.syncStageProgress db.syncStageUnwind
      ((AppliedMigrations db false).map Prod.fst) m.Migrations db.migrations db.migrations []).1
      = some (ApplyError.commitNotCalled u.Name) := by
    rw [hsplit]
    exact herr
  rw [Apply_unfold_err m db mdbx hne hfd _ herr2]
  refine ⟨rfl, ?_⟩
  show u.Name ∉ appliedNames (applyLoop AllStages db.syncStageProgress db.syncStageUnwind
    ((AppliedMigrations db false).map Prod.fst) m.Migrations db.migrations db.migrations
    []).2.2.1
  rw [applyLoop_dur, hsplit]
  exact hnm

/-- Witness for C1 at a concrete input: unit `a` completes, unit `b`
checkpoints but never completes; `Apply` fails with the commit-not-called
error naming `b` and no record for `b` exists afterwards. -/
theorem c1_commit_not_called_witness :
    (([⟨"a", fun _ => ([HandlerCall.done], none)⟩,
       ⟨"b", fun _ => ([HandlerCall.checkpoint none], none)⟩] :
        List Migration).map Migration.Name).Nodup ∧
    "b" ∉ appliedNames emptyDB.migrations ∧
    ((Migrator.mk [⟨"a", fun _ => ([HandlerCall.done], none)⟩,
       ⟨"b", fun _ => ([HandlerCall.checkpoint none], none)⟩]).Apply emptyDB false).1 =
        some (ApplyError.commitNotCalled "b") ∧
    "b" ∉ appliedNames ((Migrator.mk [⟨"a", fun _ => ([HandlerCall.done], none)⟩,
       ⟨"b", fun _ => ([HandlerCall.checkpoint none], none)⟩]).Apply
        emptyDB false).2.migrations := by
  have h := c1_commit_not_called
    (Migrator.mk [⟨"a", fun _ => ([HandlerCall.done], none)⟩,
      ⟨"b", fun _ => ([HandlerCall.checkpoint none], none)⟩]) emptyDB false
    ⟨"b", fun _ => ([HandlerCall.checkpoint none], none)⟩
    [⟨"a", fun _ => ([HandlerCall.done], none)⟩] [] rfl (by decide)
    (by
      intro v hv
      have hv2 := List.mem_singleton.mp hv
      subst hv2
      exact Or.inr (fun p => ⟨List.mem_cons_self _ _, rfl⟩))
    (by decide)
    (fun p => ⟨fun hmem => by simp at hmem, rfl⟩)
  exact ⟨by decide, by decide, h.1, h.2⟩

/-- Claim C2: with unique names and bodies that always signal completion,
`Apply` succeeds, a second `Apply` also succeeds, and the applied-set
(with payloads) after the second run equals the one after the first run:
the second run creates no records and changes none. -/
theorem c2_apply_twice (m : Migrator) (db : DBState) (mdbx : Bool)
    (hnodup : (m.Migrations.map Migration.Name).Nodup)
    (hok : ∀ v ∈ m.Migrations, unitOk v) :
    (m.Apply db mdbx).1 = none ∧
    (m.Apply (m.Apply db mdbx).2 mdbx).1 = none ∧
    AppliedMigrations (m.Apply (m.Apply db mdbx).2 mdbx).2 true =
      AppliedMigrations (m.Apply db mdbx).2 true := by
  by_cases hne : m.Migrations.isEmpty = true
  · have h1 : m.Apply db mdbx = (none, db) := by
      simp [Migrator.Apply, hne]
    refine ⟨by rw [h1], by rw [h1, h1], by rw [h1, h1]⟩
  · have hne' : m.Migrations.isEmpty = false := by
      simpa using hne
    have hfd : firstDup [] m.Migrations = none :=
      firstDup_eq_none _ [] (by simp) hnodup
    have hokap : ∀ (ap : List String), ∀ v ∈ m.Migrations, v.Name ∈ ap ∨ unitOk v :=
      fun ap v hv => Or.inr (hok v hv)
    have herr1 : (applyLoop AllStages db.syncStageProgress db.syncStageUnwind
        ((AppliedMigrations db false).map Prod.fst) m.Migrations db.migrations db.migrations
        []).1 = none :=
      applyLoop_err_none _ _ _ _ _ (hokap _) _ _ _
    have happly1 := Apply_unfold_ok m db mdbx hne' hfd herr1
    have hmarks := applyLoop_marks AllStages db.syncStageProgress db.syncStageUnwind
      ((AppliedMigrations db false).map Prod.fst) m.Migrations (hokap _)
      db.migrations db.migrations [] (fun nn hnn => hnn)
    rw [happly1]
    have herr2 : (applyLoop AllStages
        ({ db with
            migrations := (applyLoop AllStages db.syncStageProgress db.syncStageUnwind
              ((AppliedMigrations db false).map Prod.fst) m.Migrations db.migrations
              db.migrations []).2.1,
            schemaVersion := some (schemaVersionBytes mdbx) } : DBState).syncStageProgress
        ({ db with
            migrations := (applyLoop AllStages db.syncStageProgress db.syncStageUnwind
              ((AppliedMigrations db false).map Prod.fst) m.Migrations db.migrations
              db.migrations []).2.1,
            schemaVersion := some (schemaVersionBytes mdbx) } : DBState).syncStageUnwind
        ((AppliedMigrations
          ({ db with
              migrations := (applyLoop AllStages db.syncStageProgress db.syncStageUnwind
                ((AppliedMigrations db false).map Prod.fst) m.Migrations db.migrations
                db.migrations []).2.1,
              schemaVersion := some (schemaVersionBytes mdbx) } : DBState) false).map Prod.fst)
        m.Migrations
        ({ db with
            migrations := (applyLoop AllStages db.syncStageProgress db.syncStageUnwind
              ((AppliedMigrations db false).map Prod.fst) m.Migrations db.migrations
              db.migrations []).2.1,
            schemaVersion := some (schemaVersionBytes mdbx) } : DBState).migrations
        ({ db with
            migrations := (applyLoop AllStages db.syncStageProgress db.syncStageUnwind
              ((AppliedMigrations db false).map Prod.fst) m.Migrations db.migrations
              db.migrations []).2.1,
            schemaVersion := some (schemaVersionBytes mdbx) } : DBState).migrations
        []).1 = none :=
      applyLoop_err_none _ _ _ _ _ (hokap _) _ _ _
    have happly2 := Apply_unfold_ok m _ mdbx hne' hfd herr2
    rw [happly2]
    refine ⟨rfl, rfl, ?_⟩
    have hok2 : ∀ v ∈ m.Migrations,
        v.Name ∈ ((AppliedMigrations
          ({ db with
              migrations := (applyLoop AllStages db.syncStageProgress db.syncStageUnwind
                ((AppliedMigrations db false).map Prod.fst) m.Migrations db.migrations
                db.migrations []).2.1,
              schemaVersion := some (schemaVersionBytes mdbx) } : DBState) false).map Prod.fst)
          ∨ (isProgKey v.Name = true ∧ unitOk v) := by
      intro v hv
      rcases hmarks v hv with h1 | h1
      · exact Or.inr ⟨h1, hok v hv⟩
      · exact Or.inl h1
    exact applyLoop_appliedOf_inv AllStages _ _ _ m.Migrations hok2 true _ _ _

/-- Witness for C2 at a concrete input: one completing unit named `a`,
run twice from an empty store. -/
theorem c2_apply_twice_witness :
    (((Migrator.mk [⟨"a", fun _ => ([HandlerCall.done], none)⟩]).Migrations.map
        Migration.Name).Nodup) ∧
    ((Migrator.mk [⟨"a", fun _ => ([HandlerCall.done], none)⟩]).Apply emptyDB false).1 = none ∧
    ((Migrator.mk [⟨"a", fun _ => ([HandlerCall.done], none)⟩]).Apply
      ((Migrator.mk [⟨"a", fun _ => ([HandlerCall.done], none)⟩]).Apply emptyDB false).2
      false).1 = none ∧
    AppliedMigrations ((Migrator.mk [⟨"a", fun _ => ([HandlerCall.done], none)⟩]).Apply
        ((Migrator.mk [⟨"a", fun _ => ([HandlerCall.done], none)⟩]).Apply emptyDB false).2
        false).2 true =
      AppliedMigrations ((Migrator.mk [⟨"a", fun _ => ([HandlerCall.done], none)⟩]).Apply
        emptyDB false).2 true := by
  have h := c2_apply_twice (Migrator.mk [⟨"a", fun _ => ([HandlerCall.done], none)⟩])
    emptyDB false (by decide)
    (by
      intro v hv
      have hv2 := List.mem_singleton.mp hv
      subst hv2
      exact fun p => ⟨List.mem_cons_self _ _, rfl⟩)
  exact ⟨by decide, h.1, h.2.1, h.2.2⟩

/-- Claim C4: if two registered units share a name, `Apply` fails with
the `ErrMigrationNonUniqueName` error, the store is unchanged (so zero
applied-migration records are created), and no unit body is executed. -/
theorem c4_non_unique_name (m : Migrator) (db : DBState) (mdbx : Bool)
    (hdup : ¬ (m.Migrations.map Migration.Name).Nodup) :
    (∃ d, m.Apply db mdbx = (some (ApplyError.nonUniqueName d), db)) ∧
      m.ApplyExecuted db = [] := by
  have hne : m.Migrations.isEmpty = false := by
    cases hm : m.Migrations with
    | nil =>
        rw [hm] at hdup
        simp at hdup
    | cons v rest => rfl
  obtain ⟨d, hd⟩ : ∃ d, firstDup [] m.Migrations = some d := by
    cases hfd : firstDup [] m.Migrations with
    | none => exact absurd (nodup_of_firstDup_none _ _ hfd) hdup
    | some d => exact ⟨d, rfl⟩
  exact ⟨⟨d, Apply_unfold_dup m db mdbx hne d hd⟩, ApplyExecuted_unfold_dup m db hne d hd⟩

/-- Witness for C4 at a concrete input: two units both named `a`. -/
theorem c4_non_unique_name_witness :
    ¬ (((Migrator.mk [⟨"a", fun _ => ([HandlerCall.done], none)⟩,
        ⟨"a", fun _ => ([HandlerCall.done], none)⟩]).Migrations.map Migration.Name).Nodup) ∧
    (∃ d, (Migrator.mk [⟨"a", fun _ => ([HandlerCall.done], none)⟩,
        ⟨"a", fun _ => ([HandlerCall.done], none)⟩]).Apply emptyDB false =
      (some (ApplyError.nonUniqueName d), emptyDB)) ∧
    (Migrator.mk [⟨"a", fun _ => ([HandlerCall.done], none)⟩,
        ⟨"a", fun _ => ([HandlerCall.done], none)⟩]).ApplyExecuted emptyDB = [] := by
  have h := c4_non_unique_name (Migrator.mk [⟨"a", fun _ => ([HandlerCall.done], none)⟩,
    ⟨"a", fun _ => ([HandlerCall.done], none)⟩]) emptyDB false (by decide)
  exact ⟨by decide, h.1, h.2⟩

/-- Counterexample to claim C5: a unit whose last commit-handler call
before returning nil is a checkpoint call made after a completion call.
The engine does not catch this: `Apply` succeeds and even records the
unit as applied, instead of failing with the commit-not-called error. -/
theorem c5_counterexample :
    ((Migrator.mk [⟨"one",
        fun _ => ([HandlerCall.done, HandlerCall.checkpoint none], none)⟩]).Apply
      emptyDB false).1 = none ∧
    "one" ∈ appliedNames ((Migrator.mk [⟨"one",
        fun _ => ([HandlerCall.done, HandlerCall.checkpoint none], none)⟩]).Apply
      emptyDB false).2.migrations := by
  exact ⟨rfl, by decide⟩

/-- Amended claim C5: the commit-called flag is set by any completion
invocation and is never reset, so the engine only catches bodies that
never invoke the handler in completion mode; a body that completes and
afterwards checkpoints (violating the last-call clause) is accepted and
`Apply` succeeds. -/
theorem c5_done_anywhere_accepted (m : Migrator) (db : DBState) (mdbx : Bool)
    (hnodup : (m.Migrations.map Migration.Name).Nodup)
    (hok : ∀ v ∈ m.Migrations, v.Name ∈ appliedNames db.migrations ∨ unitOk v) :
    (m.Apply db mdbx).1 = none := by
  by_cases hne : m.Migrations.isEmpty = true
  · simp [Migrator.Apply, hne]
  · have hne' : m.Migrations.isEmpty = false := by
      simpa using hne
    have hfd : firstDup [] m.Migrations = none :=
      firstDup_eq_none _ [] (by simp) hnodup
    have herr : (applyLoop AllStages db.syncStageProgress db.syncStageUnwind
        ((AppliedMigrations db false).map Prod.fst) m.Migrations db.migrations db.migrations
        []).1 = none :=
      applyLoop_err_none _ _ _ _ _ hok _ _ _
    rw [Apply_unfold_ok m db mdbx hne' hfd herr]

/-- Witness for the amended C5: the completion-then-checkpoint unit is
accepted. -/
theorem c5_done_anywhere_accepted_witness :
    (((Migrator.mk [⟨"one",
        fun _ => ([HandlerCall.done, HandlerCall.checkpoint none], none)⟩]).Migrations.map
          Migration.Name).Nodup) ∧
    ((Migrator.mk [⟨"one",
        fun _ => ([HandlerCall.done, HandlerCall.checkpoint none], none)⟩]).Apply
      emptyDB true).1 = none := by
  have h := c5_done_anywhere_accepted (Migrator.mk [⟨"one",
      fun _ => ([HandlerCall.done, HandlerCall.checkpoint none], none)⟩]) emptyDB true
    (by decide)
    (by
      intro v hv
      have hv2 := List.mem_singleton.mp hv
      subst hv2
      exact Or.inr (fun p => ⟨List.mem_cons_self _ _, rfl⟩))
  exact ⟨by decide, h⟩

theorem appliedOf_keys (b : Bucket) (wp : Bool) :
    (appliedOf b wp).map Prod.fst = appliedNames b := by
  induction b with
  | nil => rfl
  | cons kv rest ih =>
      by_cases hp : isProgKey kv.1
      · simpa [appliedOf, appliedNames, List.filterMap_cons, hp] using ih
      · simpa [appliedOf, appliedNames, List.filterMap_cons, hp] using ih

theorem pending_eq_filter (ap : List String) (l : List Migration) :
    ∀ acc, l.foldl (fun acc v => if v.Name ∈ ap then acc else acc ++ [v]) acc =
      acc ++ l.filter (fun v => decide (v.Name ∉ ap)) := by
  induction l with
  | nil => intro acc; simp
  | cons v rest ih =>
      intro acc
      by_cases hp : v.Name ∈ ap
      · simp only [List.foldl_cons, if_pos hp, List.filter_cons]
        rw [ih]
        simp [hp]
      · simp only [List.foldl_cons, if_neg hp, List.filter_cons]
        rw [ih]
        simp [hp]

/-- Counterexample to claim C6: a bucket entry whose key carries the
progress prefix.  The entry exists in the migrations bucket under the
key `"_progress_x"`, yet `AppliedMigrations` excludes it, so the claimed
equivalence (membership iff a record keyed by that name exists) fails
for names beginning with the progress prefix. -/
theorem c6_counterexample :
    bget (DBState.mk [("_progress_x", [1])] none (fun _ => []) (fun _ => [])).migrations
      "_progress_x" = some [1] ∧
    "_progress_x" ∉ (AppliedMigrations
      (DBState.mk [("_progress_x", [1])] none (fun _ => []) (fun _ => [])) false).map
        Prod.fst := by
  exact ⟨rfl, by decide⟩

/-- Amended claim C6: a name appears in the result of
`AppliedMigrations` iff an entry keyed by that name exists in the
migrations bucket AND the name does not begin with the progress prefix;
and a registered unit without such a membership is pending again,
leftover progress checkpoints notwithstanding. -/
theorem c6_applied_iff (db : DBState) (n : String) (wp : Bool) :
    (n ∈ (AppliedMigrations db wp).map Prod.fst ↔
      (bget db.migrations n ≠ none ∧ isProgKey n = false)) ∧
    (∀ (m : Migrator) (u : Migration), u ∈ m.Migrations →
      u.Name ∉ (AppliedMigrations db false).map Prod.fst → u ∈ m.PendingMigrations db) := by
  constructor
  · rw [show (AppliedMigrations db wp).map Prod.fst = appliedNames db.migrations from
      appliedOf_keys db.migrations wp, mem_appliedNames_iff]
    constructor
    · rintro ⟨⟨v, hv⟩, hp⟩
      exact ⟨(bget_ne_none_iff db.migrations n).mpr ⟨v, hv⟩, hp⟩
    · rintro ⟨hv, hp⟩
      exact ⟨(bget_ne_none_iff db.migrations n).mp hv, hp⟩
  · intro m u hu hnotap
    show u ∈ m.Migrations.foldl
      (fun acc v => if v.Name ∈ (AppliedMigrations db false).map Prod.fst then acc
        else acc ++ [v]) []
    rw [pending_eq_filter]
    simp only [List.nil_append, List.mem_filter]
    exact ⟨hu, by simpa using hnotap⟩

/-- Witness for the amended C6 at concrete inputs: the equivalence at
name `z` over the empty store, and a registered unit `z` is pending on
the empty store. -/
theorem c6_applied_iff_witness :
    ("z" ∈ (AppliedMigrations emptyDB false).map Prod.fst ↔
      (bget emptyDB.migrations "z" ≠ none ∧ isProgKey "z" = false)) ∧
    (⟨"z", fun _ => ([HandlerCall.done], none)⟩ : Migration) ∈
      (Migrator.mk [⟨"z", fun _ => ([HandlerCall.done], none)⟩]).PendingMigrations emptyDB := by
  have h := c6_applied_iff emptyDB "z" false
  exact ⟨h.1, h.2 (Migrator.mk [⟨"z", fun _ => ([HandlerCall.done], none)⟩])
    ⟨"z", fun _ => ([HandlerCall.done], none)⟩ (List.mem_singleton.mpr rfl) (by decide)⟩

/-- Counterexample to claim C7: with an empty registered list, `Apply`
succeeds immediately and does not write the schema-version record, so
not every successful `Apply` call writes it. -/
theorem c7_counterexample :
    ((Migrator.mk []).Apply emptyDB true).1 = none ∧
    ((Migrator.mk []).Apply emptyDB true).2.schemaVersion = none := by
  exact ⟨rfl, rfl⟩

/-- Amended claim C7: every successful `Apply` call with a non-empty
registered list writes the schema-version record (three 4-byte
big-endian fields, the triple selected by the backend flag) after all
pending units complete; with an empty list `Apply` succeeds without
writing it. -/
theorem c7_schema_version (m : Migrator) (db : DBState) (mdbx : Bool)
    (hne : m.Migrations ≠ [])
    (hsucc : (m.Apply db mdbx).1 = none) :
    (m.Apply db mdbx).2.schemaVersion = some (schemaVersionBytes mdbx) := by
  have hne' : m.Migrations.isEmpty = false := by
    cases hm : m.Migrations with
    | nil => exact absurd hm hne
    | cons v rest => rfl
  cases hfd : firstDup [] m.Migrations with
  | some d =>
      rw [Apply_unfold_dup m db mdbx hne' d hfd] at hsucc
      simp at hsucc
  | none =>
      cases herr : (applyLoop AllStages db.syncStageProgress db.syncStageUnwind
          ((AppliedMigrations db false).map Prod.fst) m.Migrations db.migrations db.migrations
          []).1 with
      | some e =>
          rw [Apply_unfold_err m db mdbx hne' hfd e herr] at hsucc
          simp at hsucc
      | none =>
          rw [Apply_unfold_ok m db mdbx hne' hfd herr]

/-- Witness for the amended C7: one completing unit, MDBX flag set. -/
theorem c7_schema_version_witness :
    (Migrator.mk [⟨"a", fun _ => ([HandlerCall.done], none)⟩]).Migrations ≠ [] ∧
    ((Migrator.mk [⟨"a", fun _ => ([HandlerCall.done], none)⟩]).Apply emptyDB true).1 = none ∧
    ((Migrator.mk [⟨"a", fun _ => ([HandlerCall.done], none)⟩]).Apply
      emptyDB true).2.schemaVersion = some (schemaVersionBytes true) := by
  refine ⟨by simp, rfl, ?_⟩
  exact c7_schema_version (Migrator.mk [⟨"a", fun _ => ([HandlerCall.done], none)⟩])
    emptyDB true (by simp) rfl

/-- Claim C9: `PendingMigrations` returns exactly the registration-order
subsequence of units whose names are not in the applied set, and
`HasPendingMigrations` is true iff that subsequence is non-empty. -/
theorem c9_pending (m : Migrator) (db : DBState) :
    m.PendingMigrations db =
      m.Migrations.filter (fun v => decide (v.Name ∉ appliedNames db.migrations)) ∧
    (m.HasPendingMigrations db = true ↔ m.PendingMigrations db ≠ []) := by
  constructor
  · show m.Migrations.foldl
      (fun acc v => if v.Name ∈ (AppliedMigrations db false).map Prod.fst then acc
        else acc ++ [v]) [] = _
    rw [pending_eq_filter]
    rfl
  · simp only [Migrator.HasPendingMigrations, decide_eq_true_eq]
    exact List.length_pos

/-- Counterexample to claim C3: unit `one` is pre-marked applied and a
second registered unit is named `"_progress_y"`.  The pre-marked unit is
skipped and the other unit executes and completes, but the final
applied-set does not contain the executed name (its record key carries
the progress prefix and is excluded), so the applied-set does not
contain the pre-marked name plus all executed names. -/
theorem c3_counterexample :
    bget (DBState.mk [("one", [1])] none (fun _ => []) (fun _ => [])).migrations "one"
      = some [1] ∧
    (Migrator.mk [⟨"one", fun _ => ([HandlerCall.done], none)⟩,
        ⟨"_progress_y", fun _ => ([HandlerCall.done], none)⟩]).ApplyExecuted
      (DBState.mk [("one", [1])] none (fun _ => []) (fun _ => [])) = ["_progress_y"] ∧
    ((Migrator.mk [⟨"one", fun _ => ([HandlerCall.done], none)⟩,
        ⟨"_progress_y", fun _ => ([HandlerCall.done], none)⟩]).Apply
      (DBState.mk [("one", [1])] none (fun _ => []) (fun _ => [])) false).1 = none ∧
    "_progress_y" ∉ appliedNames (((Migrator.mk
        [⟨"one", fun _ => ([HandlerCall.done], none)⟩,
         ⟨"_progress_y", fun _ => ([HandlerCall.done], none)⟩]).Apply
      (DBState.mk [("one", [1])] none (fun _ => []) (fun _ => [])) false)).2.migrations := by
  exact ⟨rfl, by decide, rfl, by decide⟩

/-- Amended claim C3: provided no registered name begins with the
progress prefix, a unit whose applied-migration record pre-exists is
never executed, `Apply` executes exactly the registration-order
subsequence of un-applied units, and the final applied-set contains the
pre-marked name and every executed name. -/
theorem c3_preapplied_skipped (m : Migrator) (db : DBState) (mdbx : Bool) (u : Migration)
    (hnodup : (m.Migrations.map Migration.Name).Nodup)
    (hnp : ∀ v ∈ m.Migrations, isProgKey v.Name = false)
    (hu : u ∈ m.Migrations)
    (happ : u.Name ∈ appliedNames db.migrations)
    (hok : ∀ v ∈ m.Migrations, v.Name ∈ appliedNames db.migrations ∨ unitOk v) :
    (m.Apply db mdbx).1 = none ∧
    u.Name ∉ m.ApplyExecuted db ∧
    m.ApplyExecuted db =
      (m.Migrations.filter (fun v => decide (v.Name ∉ appliedNames db.migrations))).map
        Migration.Name ∧
    u.Name ∈ appliedNames (m.Apply db mdbx).2.migrations ∧
    (∀ n ∈ m.ApplyExecuted db, n ∈ appliedNames (m.Apply db mdbx).2.migrations) := by
  have hne' : m.Migrations.isEmpty = false := by
    cases hm : m.Migrations with
    | nil =>
        rw [hm] at hu
        simp at hu
    | cons v rest => rfl
  have hfd : firstDup [] m.Migrations = none :=
    firstDup_eq_none _ [] (by simp) hnodup
  have herr : (applyLoop AllStages db.syncStageProgress db.syncStageUnwind
      ((AppliedMigrations db false).map Prod.fst) m.Migrations db.migrations db.migrations
      []).1 = none :=
    applyLoop_err_none _ _ _ _ _ hok _ _ _
  have happly := Apply_unfold_ok m db mdbx hne' hfd herr
  have hok' : ∀ v ∈ m.Migrations,
      v.Name ∈ (AppliedMigrations db false).map Prod.fst ∨ unitOk v := hok
  have hexec0 : m.ApplyExecuted db =
      (m.Migrations.filter (fun v =>
        decide (v.Name ∉ (AppliedMigrations db false).map Prod.fst))).map Migration.Name := by
    rw [ApplyExecuted_unfold m db hne' hfd,
      applyLoop_exec AllStages db.syncStageProgress db.syncStageUnwind
        ((AppliedMigrations db false).map Prod.fst) m.Migrations hok'
        db.migrations db.migrations []]
    simp
  have hmarks := applyLoop_marks AllStages db.syncStageProgress db.syncStageUnwind
    ((AppliedMigrations db false).map Prod.fst) m.Migrations hok
    db.migrations db.migrations [] (fun nn hnn => hnn)
  have hnotex : u.Name ∉ m.ApplyExecuted db := by
    rw [hexec0]
    intro hmem
    rcases List.mem_map.mp hmem with ⟨v, hvf, hname⟩
    rcases List.mem_filter.mp hvf with ⟨_, hdec⟩
    exact (of_decide_eq_true hdec) (hname ▸ happ)
  refine ⟨by rw [happly], hnotex, hexec0, ?_, ?_⟩
  · rcases hmarks u hu with h1 | h1
    · rw [hnp u hu] at h1
      exact Bool.noConfusion h1
    · rw [happly]
      exact h1
  · intro n hn
    rw [hexec0] at hn
    rcases List.mem_map.mp hn with ⟨v, hvf, hname⟩
    rcases List.mem_filter.mp hvf with ⟨hvm, _⟩
    rcases hmarks v hvm with h1 | h1
    · rw [hnp v hvm] at h1
      exact Bool.noConfusion h1
    · rw [happly]
      exact hname ▸ h1

/-- Witness for the amended C3: unit `one` pre-marked, unit `two`
pending and completing. -/
theorem c3_preapplied_skipped_witness :
    "one" ∈ appliedNames (DBState.mk [("one", [1])] none (fun _ => [])
      (fun _ => [])).migrations ∧
    ((Migrator.mk [⟨"one", fun _ => ([HandlerCall.done], none)⟩,
        ⟨"two", fun _ => ([HandlerCall.done], none)⟩]).Apply
      (DBState.mk [("one", [1])] none (fun _ => []) (fun _ => [])) false).1 = none ∧
    "one" ∉ (Migrator.mk [⟨"one", fun _ => ([HandlerCall.done], none)⟩,
        ⟨"two", fun _ => ([HandlerCall.done], none)⟩]).ApplyExecuted
      (DBState.mk [("one", [1])] none (fun _ => []) (fun _ => [])) ∧
    "one" ∈ appliedNames (((Migrator.mk [⟨"one", fun _ => ([HandlerCall.done], none)⟩,
        ⟨"two", fun _ => ([HandlerCall.done], none)⟩]).Apply
      (DBState.mk [("one", [1])] none (fun _ => []) (fun _ => [])) false)).2.migrations := by
  have h := c3_preapplied_skipped (Migrator.mk [⟨"one", fun _ => ([HandlerCall.done], none)⟩,
      ⟨"two", fun _ => ([HandlerCall.done], none)⟩])
    (DBState.mk [("one", [1])] none (fun _ => []) (fun _ => [])) false
    ⟨"one", fun _ => ([HandlerCall.done], none)⟩ (by decide)
    (by
      intro v hv
      rcases List.mem_cons.mp hv with h1 | h1
      · rw [h1]
        decide
      · rw [List.mem_singleton.mp h1]
        decide)
    (List.mem_cons_self _ _) (by decide)
    (by
      intro v hv
      rcases List.mem_cons.mp hv with h1 | h1
      · subst h1
        exact Or.inl (by decide)
      · rw [List.mem_singleton.mp h1]
        exact Or.inr (fun p => ⟨List.mem_cons_self _ _, rfl⟩))
  exact ⟨by decide, h.1, h.2.1, h.2.2.2.1⟩

/-- Counterexample to claim C10: a unit named `"_progress_x"` whose body
completes and then returns an error.  `Apply` returns the body's error
and the record entry is durably present, but on the next `Apply` the
unit is executed again rather than skipped, because its record key
carries the progress prefix and is excluded from the applied-set. -/
theorem c10_counterexample :
    ((Migrator.mk [⟨"_progress_x", fun _ => ([HandlerCall.done], some 7)⟩]).Apply
      emptyDB false).1 = some (ApplyError.bodyError 7) ∧
    bget ((Migrator.mk [⟨"_progress_x", fun _ => ([HandlerCall.done], some 7)⟩]).Apply
      emptyDB false).2.migrations "_progress_x" ≠ none ∧
    (Migrator.mk [⟨"_progress_x", fun _ => ([HandlerCall.done], some 7)⟩]).ApplyExecuted
      ((Migrator.mk [⟨"_progress_x", fun _ => ([HandlerCall.done], some 7)⟩]).Apply
        emptyDB false).2 = ["_progress_x"] := by
  exact ⟨rfl, by decide, by decide⟩

/-- Amended claim C10: provided the unit's name does not begin with the
progress prefix, a body that invokes the commit handler in completion
mode and then returns a non-nil error makes `Apply` return that error,
while the unit's applied-migration record is already durably committed,
so the unit is skipped (not executed) by the next `Apply`. -/
theorem c10_error_after_done (m : Migrator) (db : DBState) (mdbx : Bool)
    (u : Migration) (pre post : List Migration) (e : Nat)
    (hsplit : m.Migrations = pre ++ u :: post)
    (hnodup : (m.Migrations.map Migration.Name).Nodup)
    (hpre : ∀ v ∈ pre, v.Name ∈ appliedNames db.migrations ∨ unitOk v)
    (hu : u.Name ∉ appliedNames db.migrations)
    (hnp : isProgKey u.Name = false)
    (hbody : ∀ p, HandlerCall.done ∈ (u.Up p).1 ∧ (u.Up p).2 = some e) :
    (m.Apply db mdbx).1 = some (ApplyError.bodyError e) ∧
    u.Name ∈ appliedNames (m.Apply db mdbx).2.migrations ∧
    u.Name ∉ m.ApplyExecuted (m.Apply db mdbx).2 := by
  have hne : m.Migrations.isEmpty = false := by
    rw [hsplit]
    exact isEmpty_append_cons _ _ _
  have hfd : firstDup [] m.Migrations = none :=
    firstDup_eq_none _ [] (by simp) hnodup
  obtain ⟨herr, hmem⟩ := applyLoop_errdone_unit AllStages db.syncStageProgress
    db.syncStageUnwind (appliedNames db.migrations) u post e hbody hu hnp pre
    db.migrations [] hpre
  have herr2 : (applyLoop AllStages db.syncStageProgress db.syncStageUnwind
      ((AppliedMigrations db false).map Prod.fst) m.Migrations db.migrations db.migrations []).1
      = some (ApplyError.bodyError e) := by
    rw [hsplit]
    exact herr
  have happly := Apply_unfold_err m db mdbx hne hfd _ herr2
  have hmem2 : u.Name ∈ appliedNames (m.Apply db mdbx).2.migrations := by
    rw [happly]
    show u.Name ∈ appliedNames (applyLoop AllStages db.syncStageProgress db.syncStageUnwind
      ((AppliedMigrations db false).map Prod.fst) m.Migrations db.migrations db.migrations
      []).2.2.1
    rw [applyLoop_dur, hsplit]
    exact hmem
  refine ⟨by rw [happly], hmem2, ?_⟩
  intro hcontra
  rw [ApplyExecuted_unfold m _ hne hfd] at hcontra
  rcases applyLoop_exec_sub _ _ _ _ _ _ _ _ _ hcontra with h1 | ⟨_, h2⟩
  · simp at h1
  · exact h2 hmem2

/-- Witness for the amended C10: unit `a` completes then returns error
code 7; the error propagates, the record is durable, and the next run
skips the unit. -/
theorem c10_error_after_done_witness :
    ((Migrator.mk [⟨"a", fun _ => ([HandlerCall.done], some 7)⟩]).Apply emptyDB false).1 =
      some (ApplyError.bodyError 7) ∧
    "a" ∈ appliedNames (((Migrator.mk [⟨"a", fun _ => ([HandlerCall.done], some 7)⟩]).Apply
      emptyDB false)).2.migrations ∧
    "a" ∉ (Migrator.mk [⟨"a", fun _ => ([HandlerCall.done], some 7)⟩]).ApplyExecuted
      (((Migrator.mk [⟨"a", fun _ => ([HandlerCall.done], some 7)⟩]).Apply
        emptyDB false)).2 := by
  have h := c10_error_after_done (Migrator.mk [⟨"a", fun _ => ([HandlerCall.done], some 7)⟩])
    emptyDB false ⟨"a", fun _ => ([HandlerCall.done], some 7)⟩ [] [] 7 rfl (by decide)
    (by intro v hv; simp at hv) (by decide) (by decide)
    (fun p => ⟨List.mem_cons_self _ _, rfl⟩)
  exact ⟨h.1, h.2.1, h.2.2⟩

/-! ### Lemmas for the payload-codec round trip -/

theorem cborReadHead_cborHead (major n : Nat) (rest : Bytes) (hn : n < 2 ^ 64) :
    cborReadHead (cborHead major n ++ rest) = some (major, n, rest) := by
  have hd24 : ∀ c, c < 32 → (major * 32 + c) % 32 = c := by
    intro c hc
    omega
  have hdiv : ∀ c, c < 32 → (major * 32 + c) / 32 = major := by
    intro c hc
    omega
  by_cases h1 : n < 24
  · rw [cborHead, if_pos h1, List.cons_append, List.nil_append]
    simp only [cborReadHead, hd24 n (by omega), hdiv n (by omega), if_pos h1]
  · by_cases h2 : n < 2 ^ 8
    · rw [cborHead, if_neg h1, if_pos h2]
      simp only [List.cons_append, List.nil_append, cborReadHead,
        hd24 24 (by omega), hdiv 24 (by omega)]
      norm_num
    · by_cases h3 : n < 2 ^ 16
      · rw [cborHead, if_neg h1, if_neg h2, if_pos h3]
        simp only [List.cons_append, List.nil_append, cborReadHead,
          hd24 25 (by omega), hdiv 25 (by omega)]
        norm_num
        omega
      · by_cases h4 : n < 2 ^ 32
        · rw [cborHead, if_neg h1, if_neg h2, if_neg h3, if_pos h4]
          simp only [List.cons_append, List.nil_append, cborReadHead,
            hd24 26 (by omega), hdiv 26 (by omega)]
          norm_num
          omega
        · rw [cborHead, if_neg h1, if_neg h2, if_neg h3, if_neg h4]
          simp only [List.cons_append, List.nil_append, cborReadHead,
            hd24 27 (by omega), hdiv 27 (by omega)]
          norm_num
          omega

theorem readChunk_append (a r : Bytes) : readChunk a.length (a ++ r) = some (a, r) := by
  rw [readChunk, if_pos (by simp)]
  simp

theorem unmarshal_single (k : SKey) (v : Bytes)
    (hk : k.length < 2 ^ 64) (hv : v.length < 2 ^ 64) :
    UnmarshalMigrationPayload (cborEncMap [(k, v)]) = some [(k, v)] := by
  have e1 : cborEncMap [(k, v)] =
      cborHead 5 1 ++ (cborHead 3 k.length ++ (k ++ (cborHead 2 v.length ++ v))) := by
    simp [cborEncMap, cborEncPairs, List.append_assoc]
  rw [e1, UnmarshalMigrationPayload]
  rw [cborReadHead_cborHead 5 1 _ (by omega)]
  simp only [Option.bind_eq_bind, Option.some_bind, if_pos rfl]
  rw [cborDecPairs]
  rw [cborReadHead_cborHead 3 k.length _ hk]
  simp only [Option.bind_eq_bind, Option.some_bind, if_pos rfl]
  rw [readChunk_append]
  simp only [Option.some_bind]
  rw [cborReadHead_cborHead 2 v.length _ hv]
  simp only [Option.some_bind, if_pos rfl]
  rw [show readChunk v.length v = some (v, []) from by
    rw [readChunk, if_pos (by simp)]
    simp]
  simp [cborDecPairs]

theorem collect_single (stP stU : SKey → Bytes) (s : SKey) (stages : List SKey)
    (hothers : ∀ t ∈ stages, t ≠ s → stP t = [])
    (hu : ∀ t ∈ stages, stU t = []) :
    ∀ acc : List (SKey × Bytes),
      ((acc = [] ∧ s ∈ stages) ∨ acc = [(s, stP s)]) →
      stP s ≠ [] →
      collectStagePairs stP stU stages acc = [(s, stP s)] := by
  induction stages with
  | nil =>
      intro acc hd hne
      rcases hd with ⟨_, hs⟩ | h
      · simp at hs
      · exact h
  | cons t rest ih =>
      intro acc hd hne
      have hur : ∀ q ∈ rest, stU q = [] := fun q hq => hu q (List.mem_cons_of_mem _ hq)
      have hor : ∀ q ∈ rest, q ≠ s → stP q = [] :=
        fun q hq => hothers q (List.mem_cons_of_mem _ hq)
      have hut : stU t = [] := hu t (List.mem_cons_self _ _)
      simp only [collectStagePairs, hut, List.length_nil, lt_irrefl, if_false]
      by_cases hts : t = s
      · subst hts
        rw [if_pos (List.length_pos.mpr hne)]
        refine ih hor hur _ (Or.inr ?_) hne
        rcases hd with ⟨ha, _⟩ | h
        · rw [ha]
          rfl
        · rw [h]
          simp [bput]
      · rw [hothers t (List.mem_cons_self _ _) hts]
        simp only [List.length_nil, lt_irrefl, if_false]
        refine ih hor hur _ ?_ hne
        rcases hd with ⟨ha, hs⟩ | h
        · refine Or.inl ⟨ha, ?_⟩
          rcases List.mem_cons.mp hs with h1 | h1
          · exact absurd h1.symm hts
          · exact h1
        · exact Or.inr h

/-- Claim C8: for a store handle in which exactly one stage carries a
non-empty forward-progress value and no stage carries an unwind value,
decoding the marshalled payload yields a mapping with exactly one entry,
keyed by that stage's name, holding the stored progress bytes.  (Key and
value lengths are bounded by the 64-bit machine limit of the encoder.) -/
theorem c8_roundtrip (allStages : List SKey) (stP stU : SKey → Bytes) (s : SKey)
    (hs : s ∈ allStages) (hp : stP s ≠ [])
    (hkl : s.length < 2 ^ 64) (hvl : (stP s).length < 2 ^ 64)
    (hothers : ∀ t ∈ allStages, t ≠ s → stP t = [])
    (hu : ∀ t ∈ allStages, stU t = []) :
    UnmarshalMigrationPayload (MarshalMigrationPayload allStages stP stU) =
      some [(s, stP s)] := by
  rw [MarshalMigrationPayload,
    collect_single stP stU s allStages hothers hu [] (Or.inl ⟨rfl, hs⟩) hp]
  exact unmarshal_single s (stP s) hkl hvl

/-- Witness for C8 at a concrete input: two stages, the first holding
progress bytes `[42]`, no unwind values. -/
theorem c8_roundtrip_witness :
    ([1] : SKey) ∈ ([[1], [2]] : List SKey) ∧
    (fun t => if t = ([1] : SKey) then ([42] : Bytes) else []) [1] ≠ [] ∧
    UnmarshalMigrationPayload (MarshalMigrationPayload [[1], [2]]
      (fun t => if t = ([1] : SKey) then ([42] : Bytes) else []) (fun _ => [])) =
      some [([1], [42])] := by
  refine ⟨by decide, by decide, ?_⟩
  exact c8_roundtrip [[1], [2]] (fun t => if t = ([1] : SKey) then ([42] : Bytes) else [])
    (fun _ => []) [1] (by decide) (by decide) (by norm_num) (by norm_num)
    (by decide) (fun t ht => rfl)
end Erigon
